import Mathlib

/-!
Verification development for the FreeCAD-render mesh-processing core
(`Render/rendermesh.py` and `Render/rendermesh_mp/autosmooth.py`).

Conventions of the shallow embedding:
* Python floats are modelled by an arbitrary `LinearOrderedCommRing`
  scalar (instantiated at `ℤ` in executable witness statements, where
  kernel reduction is available, and at `ℝ` where the code uses
  transcendental functions such as `arccos`, `cos`, `sqrt`).
* A mesh is carried as separate lists: `points : List (V3 α)`,
  `facets : List Facet`, `normals : List (V3 α)`, `areas : List α`,
  mirroring `self.__points`, `self.__facets`, `self.__normals`,
  `self.__areas` of `RenderMesh`.
* Python list mutation becomes explicit state passing; Python `list.pop()`
  (which removes the LAST element) is modelled by `popLast`; Python sets of
  small integers (whose iteration order is unspecified) are modelled by
  `List.dedup` where an order must be picked, or by `Finset` where only
  membership is ever observed; Python dicts, whose iteration order is the
  key insertion order (first occurrence), are modelled by `dedupF`,
  a first-occurrence de-duplication.
* The split-angle threshold enters every algorithm only through
  `cos(split_angle)`; accordingly the embedding takes the cosine itself as
  the parameter (`split_angle_cos`), as `RenderMesh.connected_facets` does.
* The helper module `vector3d` is not part of the provided sources; its
  functions (`dot`, `angles`, `fmul`, `add`, `safe_normalize`) are modelled
  from the spec where used (see the doc comments marked `Modelled from the
  spec:`).
-/

namespace RenderVerif

/-- A 3D vector, as a triple of scalars. -/
abbrev V3 (α : Type) := α × α × α

/-- A facet: an ordered triple of point indices, as produced by
`Mesh.Topology` and stored in `self.__facets`. -/
abbrev Facet := ℕ × ℕ × ℕ

/-- The three point indices of a facet, in order (Python tuple iteration). -/
def Facet.toList (f : Facet) : List ℕ := [f.1, f.2.1, f.2.2]

/-- The set of point indices of a facet (Python `set(facet)`). -/
def Facet.pts (f : Facet) : Finset ℕ := f.toList.toFinset

/-- Modelled from the spec: `vector3d.dot`, the 3D dot product
(the `vector3d` module is not among the provided sources). -/
def dot3 {α : Type} [LinearOrderedCommRing α] (u v : V3 α) : α :=
  u.1 * v.1 + u.2.1 * v.2.1 + u.2.2 * v.2.2

/-- Componentwise sum. Modelled from the spec: `vector3d.add`. -/
def add3 {α : Type} [LinearOrderedCommRing α] (u v : V3 α) : V3 α :=
  (u.1 + v.1, u.2.1 + v.2.1, u.2.2 + v.2.2)

/-- Scalar multiple. Modelled from the spec: `vector3d.fmul`. -/
def fmul3 {α : Type} [LinearOrderedCommRing α] (v : V3 α) (s : α) : V3 α :=
  (v.1 * s, v.2.1 * s, v.2.2 * s)

/-- The zero vector. -/
def zero3 {α : Type} [LinearOrderedCommRing α] : V3 α := (0, 0, 0)

/-- Number of point indices shared by two facets
(Python `len(set(f) & set(g))`). -/
def sharedCount (f g : Facet) : ℕ := (f.pts ∩ g.pts).card

section AdjacencyBuilders

variable {α : Type} [LinearOrderedCommRing α]

/-- `facets_per_point` of `RenderMesh.adjacent_facets` and of
`autosmooth.init`: for each point index, the list of facets using it, in
increasing facet order.  The Python reducer appends facet `i` to row `p`
once per corner of facet `i` equal to `p`; no consumer ever observes this
per-corner multiplicity (rows are only read under `set(...)` or inserted
into sets), so the embedding keeps each facet once. -/
def facets_per_point (count_points : ℕ) (facets : List Facet) : List (List ℕ) :=
  (List.range count_points).map fun p =>
    (List.range facets.length).filter fun i => p ∈ (facets.getD i (0, 0, 0)).toList

/-- `RenderMesh.adjacent_facets` (rendermesh.py, lines 968-1004): for each
facet, the set of facets sharing exactly two point indices with it.  Note
that the source function receives a `split_angle_cos` argument but never
uses it: no angle predicate is applied, and no truncation occurs (the
accumulators are unbounded Python sets). -/
def adjacent_facets (count_points : ℕ) (facets : List Facet) : List (Finset ℕ) :=
  let fpp := facets_per_point count_points facets
  facets.enum.map fun p =>
    p.2.pts.biUnion fun q =>
      ((fpp.getD q []).filter fun o =>
        decide (sharedCount p.2 (facets.getD o (0, 0, 0)) = 2)).toFinset

/-- The qualifying-neighbor list that `compute_adjacents` builds for one
facet `g` (the Python local `adjacents[facet_idx]`): every candidate facet
incident to one of `g`'s points (`set(chain(FACETS_PER_POINT[p] for p in
facet))`, first-occurrence order) that shares exactly two point indices
with `g` and passes the angle test. -/
def chunk_adjacents_of (count_points : ℕ) (facets : List Facet)
    (normals : List (V3 α)) (split_angle_cos : α) (g : ℕ) : List ℕ :=
  let fpp := facets_per_point count_points facets
  let facet := facets.getD g (0, 0, 0)
  ((facet.toList.map fun p => fpp.getD p []).flatten.dedup).filter fun o =>
    decide (sharedCount facet (facets.getD o (0, 0, 0)) = 2) &&
    decide (dot3 (normals.getD g zero3) (normals.getD o zero3)
      ≥ split_angle_cos)

/-- `autosmooth.compute_adjacents` (autosmooth.py, lines 100-137), the
multiprocessing chunk builder, restricted to one chunk `[start, stop)`.
For each facet of the chunk it gathers the qualifying neighbors
(`chunk_adjacents_of`) and writes a 3-slot row into `SHARED_ADJACENCY`:
the first three found, `-1`-padded
(`islice(chain(set(adj), (-1, -1, -1)), 0, 3)`). -/
def compute_adjacents (count_points : ℕ) (facets : List Facet)
    (normals : List (V3 α)) (split_angle_cos : α) (start stop : ℕ) :
    List (List ℤ) :=
  (List.range (stop - start)).map fun fi =>
    (((chunk_adjacents_of count_points facets normals split_angle_cos
        (start + fi)).dedup.map (Int.ofNat ·)) ++ [-1, -1, -1]).take 3

/-- `autosmooth.compute_adjacents_np` (autosmooth.py, lines 255-276), the
vectorized builder's final step: given the (key-sorted) list of adjacent
facet pairs, group them by first component and write, per key, the group's
second components truncated to the first 3, `-1`-padded to 3 slots
(`(list(map(itget1, v)) + [-1, -1, -1])[0:3]`).  Python's `groupby` groups
consecutive runs; on the sorted input it receives, runs coincide with the
key classes, which is how the embedding forms the groups. -/
def compute_adjacents_np (pairs : List (ℕ × ℕ)) : List (ℕ × List ℤ) :=
  (pairs.map Prod.fst).dedup.map fun k =>
    (k, (((pairs.filter fun (p : ℕ × ℕ) => decide (p.1 = k)).map
      fun (p : ℕ × ℕ) => (Int.ofNat p.2)) ++ [-1, -1, -1]).take 3)

end AdjacencyBuilders

section DepthFirstSearch

/-- Pop the last element of a list, as Python `list.pop()` does; also used
for Python `set.pop()` (whose choice of element is unspecified and on which
no theorem below depends). Returns the popped element and the remainder. -/
def popLast : List ℕ → Option (ℕ × List ℕ)
  | [] => none
  | x :: xs =>
    match popLast xs with
    | none => some (x, [])
    | some (e, es) => some (e, x :: es)

theorem popLast_eq_none {l : List ℕ} : popLast l = none ↔ l = [] := by
  cases l with
  | nil => simp [popLast]
  | cons x xs =>
    simp only [popLast]
    cases h : popLast xs <;> simp

theorem popLast_eq_some {l : List ℕ} {e : ℕ} {es : List ℕ}
    (h : popLast l = some (e, es)) : l = es ++ [e] := by
  induction l generalizing e es with
  | nil => simp [popLast] at h
  | cons x xs ih =>
    simp only [popLast] at h
    cases hx : popLast xs with
    | none =>
      rw [hx] at h
      have hxs : xs = [] := popLast_eq_none.mp hx
      simp only [Option.some.injEq, Prod.mk.injEq] at h
      simp [hxs, ← h.1, ← h.2]
    | some p =>
      rw [hx] at h
      obtain ⟨e', es'⟩ := p
      simp only [Option.some.injEq, Prod.mk.injEq] at h
      have := ih (show popLast xs = some (e', es') from by rw [hx])
      subst this
      simp [← h.1, ← h.2]

theorem sum_map_length_set_lt {A : List (List ℕ)} {c e : ℕ} {es : List ℕ}
    (h : A.getD c [] = es ++ [e]) :
    ((A.set c es).map List.length).sum < (A.map List.length).sum := by
  induction A generalizing c with
  | nil => simp at h
  | cons a tl ih =>
    cases c with
    | zero =>
      simp only [List.getD_cons_zero] at h
      subst h
      simp only [List.set_cons_zero, List.map_cons, List.sum_cons]
      have : es.length < (es ++ [e]).length := by simp
      omega
    | succ m =>
      simp only [List.getD_cons_succ] at h
      have := ih h
      simp only [List.set_cons_succ, List.map_cons, List.sum_cons]
      omega

/-- Iterative depth-first traversal, the common skeleton of
`RenderMesh.connected_facets` (rendermesh.py, lines 898-966) and
`autosmooth._connected_facets` (autosmooth.py, lines 281-329).
State: `A` the adjacency lists (consumed destructively by `pop()`),
`T` the tags, `σ` the stack (head = top).  At each step the stack top `c`
pops the last entry `e` of its adjacency list; if `accept c e` holds (the
per-edge test: trivial in the mp version, index-bound plus angle test in
the sp version) and `e` is untagged, `e` is tagged and pushed; when the
list is exhausted the top is popped. -/
def cfGo (accept : ℕ → ℕ → Bool) (A : List (List ℕ)) (T : List (Option ℕ))
    (tag : ℕ) (σ : List ℕ) : List (List ℕ) × List (Option ℕ) :=
  match σ with
  | [] => (A, T)
  | c :: rest =>
    match hp : popLast (A.getD c []) with
    | none => cfGo accept A T tag rest
    | some (e, es) =>
      if accept c e && (T.getD e (some 0)).isNone then
        cfGo accept (A.set c es) (T.set e (some tag)) tag (e :: c :: rest)
      else
        cfGo accept (A.set c es) T tag (c :: rest)
termination_by 2 * (A.map List.length).sum + σ.length
decreasing_by
  · simp only [List.length_cons]
    omega
  · have := sum_map_length_set_lt (popLast_eq_some hp)
    simp only [List.length_cons]
    omega
  · have := sum_map_length_set_lt (popLast_eq_some hp)
    simp only [List.length_cons]
    omega

/-- One seeded DFS: tag the seed, then run the traversal
(`stack = [starting_facet_index]; tags[starting_facet_index] = new_tag`
followed by the while loop, in both Python versions). -/
def connectedFacetsFrom (accept : ℕ → ℕ → Bool) (start : ℕ)
    (A : List (List ℕ)) (T : List (Option ℕ)) (tag : ℕ) :
    List (List ℕ) × List (Option ℕ) :=
  cfGo accept A (T.set start (some tag)) tag [start]

theorem cfGo_length_T (accept : ℕ → ℕ → Bool) (A : List (List ℕ))
    (T : List (Option ℕ)) (tag : ℕ) (σ : List ℕ) :
    (cfGo accept A T tag σ).2.length = T.length := by
  induction A, T, tag, σ using cfGo.induct accept with
  | case1 A T tag => simp [cfGo]
  | case2 A T tag c rest hp ih => rw [cfGo]; rw [hp]; exact ih
  | case3 A T tag c rest e es hp hc ih =>
    rw [cfGo, hp]
    simp only [hc, if_true]
    rw [ih]
    simp
  | case4 A T tag c rest e es hp hc ih =>
    rw [cfGo, hp]
    simp only [hc, if_false]
    exact ih

/-- The seed loop shared by `RenderMesh.connected_components`
(rendermesh.py, lines 1007-1037) and `autosmooth.connected_components`
(autosmooth.py, lines 332-361): scan facet indices in order; each facet
still untagged when reached seeds a fresh component whose tag is drawn
from the counter (`it.count()` in the sp version, the shared
`current_tag` value in the mp version). -/
def ccGo (accept : ℕ → ℕ → Bool) (A : List (List ℕ)) (T : List (Option ℕ))
    (ctr : ℕ) (s : ℕ) : List (List ℕ) × List (Option ℕ) × ℕ :=
  if h : s < T.length then
    if (T.getD s (some 0)).isNone then
      let r := connectedFacetsFrom accept s A T ctr
      ccGo accept r.1 r.2 (ctr + 1) (s + 1)
    else
      ccGo accept A T ctr (s + 1)
  else (A, T, ctr)
termination_by T.length - s
decreasing_by
  · have : (connectedFacetsFrom accept s A T ctr).2.length = T.length := by
      unfold connectedFacetsFrom
      rw [cfGo_length_T]
      simp
    omega
  · omega

end DepthFirstSearch

section DfsCorrectness

theorem getD_set_self {β : Type} {T : List β} {e : ℕ} {v d : β}
    (h : e < T.length) : (T.set e v).getD e d = v := by
  simp [List.getD_eq_getElem?_getD, List.getElem?_set_self, h]

theorem getD_set_ne {β : Type} {T : List β} {e i : ℕ} {v d : β}
    (h : e ≠ i) : (T.set e v).getD i d = T.getD i d := by
  simp [List.getD_eq_getElem?_getD, List.getElem?_set_ne, h]

theorem getD_isNone_bound {T : List (Option ℕ)} {e : ℕ}
    (h : (T.getD e (some 0)).isNone = true) :
    e < T.length ∧ T.getD e none = none := by
  by_cases he : e < T.length
  · refine ⟨he, ?_⟩
    have h1 : T.getD e (some 0) = T.getD e none := by
      rw [List.getD_eq_getElem?_getD, List.getD_eq_getElem?_getD,
        List.getElem?_eq_getElem he]
      rfl
    rw [h1] at h
    exact Option.eq_none_of_isNone h
  · exfalso
    rw [List.getD_eq_getElem?_getD, List.getElem?_eq_none (by omega)] at h
    simp at h

theorem getD_none_out_of_range {T : List (Option ℕ)} {e : ℕ}
    (h : ¬ e < T.length) : T.getD e none = none := by
  rw [List.getD_eq_getElem?_getD, List.getElem?_eq_none (by omega)]
  rfl

theorem isSome_getD_set_mono {T : List (Option ℕ)} {e j t : ℕ}
    (h : (T.getD j none).isSome = true) :
    ((T.set e (some t)).getD j none).isSome = true := by
  by_cases hej : e = j
  · subst hej
    by_cases he : e < T.length
    · rw [getD_set_self he]; rfl
    · rw [List.set_eq_of_length_le (by omega)]; exact h
  · rwa [getD_set_ne hej]

/-- Edge relation effectively traversed by the DFS: `j` occurs in the
adjacency list of `i` and the per-edge test accepts it, both indices in
range of the adjacency table. -/
def EdgeRel (accept : ℕ → ℕ → Bool) (A0 : List (List ℕ)) (i j : ℕ) : Prop :=
  i < A0.length ∧ j < A0.length ∧ j ∈ A0.getD i [] ∧ accept i j = true

/-- `EdgeRel` restricted to vertices untagged in the tag table `Tst`. -/
def EdgeRelU (accept : ℕ → ℕ → Bool) (A0 : List (List ℕ))
    (Tst : List (Option ℕ)) (i j : ℕ) : Prop :=
  EdgeRel accept A0 i j ∧ Tst.getD i none = none ∧ Tst.getD j none = none

theorem EdgeRelU.le {accept : ℕ → ℕ → Bool} {A0 : List (List ℕ)}
    {Tst : List (Option ℕ)} {i j : ℕ} (h : EdgeRelU accept A0 Tst i j) :
    EdgeRel accept A0 i j := h.1

/-- Invariant of the iterative DFS `cfGo`, relative to the full adjacency
table `A0` and the tag table `Tst` as they were when the current seeded
traversal started (the seed `s0` already tagged `tag` in `T` but not in
`Tst`). -/
structure DfsInv (accept : ℕ → ℕ → Bool) (A0 : List (List ℕ))
    (Tst : List (Option ℕ)) (tag : ℕ) (s0 : ℕ)
    (A : List (List ℕ)) (T : List (Option ℕ)) (σ : List ℕ) : Prop where
  lenA : A.length = A0.length
  lenT : T.length = Tst.length
  lenTst : Tst.length = A0.length
  old_tags : ∀ i t, Tst.getD i none = some t → T.getD i none = some t
  new_tags : ∀ i, T.getD i none ≠ Tst.getD i none →
      Tst.getD i none = none ∧ T.getD i none = some tag
  seed_tag : T.getD s0 none = some tag
  tagged_spent : ∀ i, (T.getD i none).isSome → i ∉ σ → A.getD i [] = []
  untagged_intact : ∀ i, T.getD i none = none → A.getD i [] = A0.getD i []
  consumed : ∀ i, ∃ rest, A0.getD i [] = A.getD i [] ++ rest ∧
      ∀ j ∈ rest, accept i j = true → j < T.length → (T.getD j none).isSome
  stack_tags : ∀ i ∈ σ, T.getD i none = some tag ∧ Tst.getD i none = none
  stack_nodup : σ.Nodup
  reach : ∀ i, Tst.getD i none = none → T.getD i none = some tag →
      Relation.ReflTransGen (EdgeRelU accept A0 Tst) s0 i

theorem cfGo_inv (accept : ℕ → ℕ → Bool) (A0 : List (List ℕ))
    (Tst : List (Option ℕ)) (s0 : ℕ) (A : List (List ℕ))
    (T : List (Option ℕ)) (tag : ℕ) (σ : List ℕ) :
    DfsInv accept A0 Tst tag s0 A T σ →
    DfsInv accept A0 Tst tag s0 (cfGo accept A T tag σ).1
      (cfGo accept A T tag σ).2 [] := by
  induction A, T, tag, σ using cfGo.induct accept with
  | case1 A T tag =>
    intro hinv
    simpa [cfGo] using hinv
  | case2 A T tag c rest hp ih =>
    intro hinv
    rw [cfGo]; rw [hp]
    have hAc : A.getD c [] = [] := popLast_eq_none.mp hp
    refine ih ?_
    exact {
      lenA := hinv.lenA
      lenT := hinv.lenT
      lenTst := hinv.lenTst
      old_tags := hinv.old_tags
      new_tags := hinv.new_tags
      seed_tag := hinv.seed_tag
      tagged_spent := by
        intro i hi hmem
        by_cases hic : i = c
        · subst hic; exact hAc
        · exact hinv.tagged_spent i hi (by simp [hic, hmem])
      untagged_intact := hinv.untagged_intact
      consumed := hinv.consumed
      stack_tags := fun i hi => hinv.stack_tags i (by simp [hi])
      stack_nodup := hinv.stack_nodup.of_cons
      reach := hinv.reach }
  | case3 A T tag c rest e es hp hc ih =>
    intro hinv
    rw [cfGo]; rw [hp]
    simp only [hc, if_true]
    have hAc : A.getD c [] = es ++ [e] := popLast_eq_some hp
    have hcA : c < A.length := by
      by_contra hlt
      rw [List.getD_eq_default _ _ (by omega)] at hAc
      exact absurd hAc.symm (List.append_ne_nil_of_right_ne_nil _ (by simp))
    have hacc : accept c e = true := by
      have := Bool.and_eq_true_iff.mp hc
      exact this.1
    have heT : e < T.length ∧ T.getD e none = none := by
      have := Bool.and_eq_true_iff.mp hc
      exact getD_isNone_bound this.2
    have heTst : Tst.getD e none = none := by
      cases h : Tst.getD e none with
      | none => rfl
      | some t =>
        have := hinv.old_tags e t h
        rw [heT.2] at this
        exact absurd this (by simp)
    have hcstack : T.getD c none = some tag ∧ Tst.getD c none = none :=
      hinv.stack_tags c (by simp)
    obtain ⟨rest0, hr0, hr0tags⟩ := hinv.consumed c
    refine ih ?_
    exact {
      lenA := by rw [List.length_set]; exact hinv.lenA
      lenT := by rw [List.length_set]; exact hinv.lenT
      lenTst := hinv.lenTst
      old_tags := by
        intro i t hi
        by_cases hei : e = i
        · subst hei
          rw [heTst] at hi
          exact absurd hi (by simp)
        · rw [getD_set_ne hei]
          exact hinv.old_tags i t hi
      new_tags := by
        intro i hi
        by_cases hei : e = i
        · subst hei
          rw [getD_set_self heT.1]
          exact ⟨heTst, rfl⟩
        · rw [getD_set_ne hei] at hi ⊢
          exact hinv.new_tags i hi
      seed_tag := by
        have hes : e ≠ s0 := by
          intro hh
          rw [hh, hinv.seed_tag] at heT
          exact absurd heT.2 (by simp)
        rw [getD_set_ne hes]
        exact hinv.seed_tag
      tagged_spent := by
        intro i hi hmem
        simp only [List.mem_cons, not_or] at hmem
        have hie : i ≠ e := hmem.1
        have hic : i ≠ c := hmem.2.1
        rw [getD_set_ne (fun hh => hie hh.symm)] at hi
        rw [getD_set_ne (fun hh => hic hh.symm)]
        exact hinv.tagged_spent i hi (by
          simp only [List.mem_cons, not_or]
          exact ⟨hic, hmem.2.2⟩)
      untagged_intact := by
        intro i hi
        have hie : e ≠ i := by
          intro hh
          subst hh
          rw [getD_set_self heT.1] at hi
          exact absurd hi (by simp)
        rw [getD_set_ne hie] at hi
        have hic : c ≠ i := by
          intro hh
          subst hh
          rw [hcstack.1] at hi
          exact absurd hi (by simp)
        rw [getD_set_ne hic]
        exact hinv.untagged_intact i hi
      consumed := by
        intro i
        by_cases hic : c = i
        · subst hic
          refine ⟨e :: rest0, ?_, ?_⟩
          · rw [getD_set_self hcA, hr0, hAc]
            simp
          · intro j hj _hacc _hjlen
            simp only [List.mem_cons] at hj
            rcases hj with hj | hj
            · subst hj
              rw [getD_set_self heT.1]
              rfl
            · rw [List.length_set] at _hjlen
              exact isSome_getD_set_mono (hr0tags j hj _hacc _hjlen)
        · obtain ⟨rest1, hr1, hr1tags⟩ := hinv.consumed i
          refine ⟨rest1, ?_, ?_⟩
          · rw [getD_set_ne hic]
            exact hr1
          · intro j hj hjacc hjlen
            rw [List.length_set] at hjlen
            exact isSome_getD_set_mono (hr1tags j hj hjacc hjlen)
      stack_tags := by
        intro i hi
        simp only [List.mem_cons] at hi
        rcases hi with hi | hi
        · subst hi
          rw [getD_set_self heT.1]
          exact ⟨rfl, heTst⟩
        · have hmem : i ∈ c :: rest := List.mem_cons.mpr hi
          have := hinv.stack_tags i hmem
          have hie : e ≠ i := by
            intro hh
            subst hh
            rw [heT.2] at this
            exact absurd this.1 (by simp)
          rw [getD_set_ne hie]
          exact this
      stack_nodup := by
        refine List.Nodup.cons ?_ hinv.stack_nodup
        intro hmem
        have := hinv.stack_tags e hmem
        rw [heT.2] at this
        exact absurd this.1 (by simp)
      reach := by
        intro i hiTst hi
        by_cases hei : e = i
        · subst hei
          have hreach_c := hinv.reach c hcstack.2 hcstack.1
          refine Relation.ReflTransGen.tail hreach_c ?_
          refine ⟨⟨?_, ?_, ?_, hacc⟩, hcstack.2, heTst⟩
          · rw [← hinv.lenA]; exact hcA
          · rw [← hinv.lenTst, ← hinv.lenT]; exact heT.1
          · rw [hr0, hAc]; simp
        · rw [getD_set_ne hei] at hi
          exact hinv.reach i hiTst hi }
  | case4 A T tag c rest e es hp hc ih =>
    intro hinv
    rw [cfGo]; rw [hp]
    simp only [hc, if_false]
    have hAc : A.getD c [] = es ++ [e] := popLast_eq_some hp
    have hcA : c < A.length := by
      by_contra hlt
      rw [List.getD_eq_default _ _ (by omega)] at hAc
      exact absurd hAc.symm (List.append_ne_nil_of_right_ne_nil _ (by simp))
    have hcstack : T.getD c none = some tag ∧ Tst.getD c none = none :=
      hinv.stack_tags c (by simp)
    obtain ⟨rest0, hr0, hr0tags⟩ := hinv.consumed c
    refine ih ?_
    exact {
      lenA := by rw [List.length_set]; exact hinv.lenA
      lenT := hinv.lenT
      lenTst := hinv.lenTst
      old_tags := hinv.old_tags
      new_tags := hinv.new_tags
      seed_tag := hinv.seed_tag
      tagged_spent := by
        intro i hi hmem
        have hic : c ≠ i := by
          intro hh
          subst hh
          exact hmem (by simp)
        rw [getD_set_ne hic]
        exact hinv.tagged_spent i hi hmem
      untagged_intact := by
        intro i hi
        have hic : c ≠ i := by
          intro hh
          subst hh
          rw [hcstack.1] at hi
          exact absurd hi (by simp)
        rw [getD_set_ne hic]
        exact hinv.untagged_intact i hi
      consumed := by
        intro i
        by_cases hic : c = i
        · subst hic
          refine ⟨e :: rest0, ?_, ?_⟩
          · rw [getD_set_self hcA, hr0, hAc]
            simp
          · intro j hj hjacc hjlen
            simp only [List.mem_cons] at hj
            rcases hj with hj | hj
            · subst hj
              cases hx : T.getD j none with
              | some t => rfl
              | none =>
                exfalso
                apply hc
                have h2 : T.getD j (some 0) = T.getD j none := by
                  rw [List.getD_eq_getElem?_getD, List.getD_eq_getElem?_getD,
                    List.getElem?_eq_getElem hjlen]
                  rfl
                rw [h2, hx, hjacc]
                rfl
            · exact hr0tags j hj hjacc hjlen
        · obtain ⟨rest1, hr1, hr1tags⟩ := hinv.consumed i
          refine ⟨rest1, ?_, hr1tags⟩
          rw [getD_set_ne hic]
          exact hr1
      stack_tags := hinv.stack_tags
      stack_nodup := hinv.stack_nodup
      reach := hinv.reach }

theorem getD_some_lt {T : List (Option ℕ)} {i t : ℕ}
    (h : T.getD i none = some t) : i < T.length := by
  by_contra hlt
  rw [getD_none_out_of_range hlt] at h
  exact absurd h (by simp)

/-- Invariant of the seed loop `ccGo`: tags assigned so far are fresh
(within `[ctr0, ctr)`), tag classes are exactly the connected components of
the already-scanned part of the graph, every tagged vertex has a fully
consumed adjacency list and every untagged vertex an untouched one. -/
structure CcInv (accept : ℕ → ℕ → Bool) (A0 : List (List ℕ)) (ctr0 : ℕ)
    (A : List (List ℕ)) (T : List (Option ℕ)) (ctr : ℕ) (s : ℕ) : Prop where
  lenA : A.length = A0.length
  lenT : T.length = A0.length
  ctr_le : ctr0 ≤ ctr
  tag_range : ∀ i t, T.getD i none = some t → ctr0 ≤ t ∧ t < ctr
  below_tagged : ∀ i, i < s → (T.getD i none).isSome = true
  tagged_spent : ∀ i, (T.getD i none).isSome = true → A.getD i [] = []
  untagged_intact : ∀ i, T.getD i none = none → A.getD i [] = A0.getD i []
  same_tag_reach : ∀ i j t, T.getD i none = some t → T.getD j none = some t →
      Relation.ReflTransGen (EdgeRel accept A0) i j
  tagged_closed : ∀ i j, (T.getD i none).isSome = true → EdgeRel accept A0 i j →
      (T.getD j none).isSome = true
  adj_same_tag : ∀ i j t u, EdgeRel accept A0 i j → T.getD i none = some t →
      T.getD j none = some u → t = u

theorem ccGo_preserves (accept : ℕ → ℕ → Bool) (A0 : List (List ℕ)) (ctr0 : ℕ)
    (Hsym : ∀ i j, EdgeRel accept A0 i j → EdgeRel accept A0 j i)
    (A : List (List ℕ)) (T : List (Option ℕ)) (ctr : ℕ) (s : ℕ) :
    CcInv accept A0 ctr0 A T ctr s →
    CcInv accept A0 ctr0 (ccGo accept A T ctr s).1 (ccGo accept A T ctr s).2.1
      (ccGo accept A T ctr s).2.2 A0.length := by
  induction A, T, ctr, s using ccGo.induct accept with
  | case1 A T ctr s hs hnone r ih =>
    intro hinv
    rw [ccGo]
    simp only [hs, dif_pos, hnone, if_pos]
    have hTs : T.getD s none = none := (getD_isNone_bound hnone).2
    have hsT : s < T.length := hs
    -- Establish the DFS invariant for the freshly seeded traversal.
    have hdi : DfsInv accept A0 T ctr s A (T.set s (some ctr)) [s] := by
      refine {
        lenA := hinv.lenA
        lenT := by rw [List.length_set]
        lenTst := hinv.lenT
        old_tags := ?_
        new_tags := ?_
        seed_tag := getD_set_self hsT
        tagged_spent := ?_
        untagged_intact := ?_
        consumed := ?_
        stack_tags := ?_
        stack_nodup := by simp
        reach := ?_ }
      · intro i t hi
        have his : s ≠ i := by
          intro hh
          rw [← hh, hTs] at hi
          exact absurd hi (by simp)
        rw [getD_set_ne his]
        exact hi
      · intro i hi
        by_cases his : s = i
        · subst his
          rw [getD_set_self hsT]
          exact ⟨hTs, rfl⟩
        · rw [getD_set_ne his] at hi
          exact absurd rfl hi
      · intro i hi hmem
        have his : s ≠ i := by
          intro hh
          exact hmem (by simp [← hh])
        rw [getD_set_ne his] at hi
        exact hinv.tagged_spent i hi
      · intro i hi
        have his : s ≠ i := by
          intro hh
          subst hh
          rw [getD_set_self hsT] at hi
          exact absurd hi (by simp)
        rw [getD_set_ne his] at hi
        exact hinv.untagged_intact i hi
      · intro i
        cases hTi : T.getD i none with
        | none =>
          refine ⟨[], ?_, by simp⟩
          rw [hinv.untagged_intact i hTi]
          simp
        | some t =>
          refine ⟨A0.getD i [], ?_, ?_⟩
          · rw [hinv.tagged_spent i (by rw [hTi]; rfl)]
            simp
          · intro j hj hjacc hjlen
            rw [List.length_set] at hjlen
            have hlen : T.length = A0.length := hinv.lenT
            have hE : EdgeRel accept A0 i j := by
              refine ⟨?_, ?_, hj, hjacc⟩
              · have := getD_some_lt hTi
                omega
              · omega
            have := hinv.tagged_closed i j (by rw [hTi]; rfl) hE
            exact isSome_getD_set_mono this
      · intro i hi
        simp only [List.mem_cons, List.not_mem_nil, or_false] at hi
        subst hi
        exact ⟨getD_set_self hsT, hTs⟩
      · intro i hiTst hi
        by_cases his : s = i
        · subst his
          exact Relation.ReflTransGen.refl
        · rw [getD_set_ne his] at hi
          rw [hiTst] at hi
          exact absurd hi (by simp)
    have hdf0 := cfGo_inv accept A0 T s A (T.set s (some ctr)) ctr [s] hdi
    have hdf : DfsInv accept A0 T ctr s r.1 r.2 [] := hdf0
    refine ih ?_
    -- Re-establish the loop invariant after the traversal.
    have hmono : ∀ i t, T.getD i none = some t → r.2.getD i none = some t :=
      fun i t hi => hdf.old_tags i t hi
    have hnew : ∀ i, r.2.getD i none ≠ T.getD i none →
        T.getD i none = none ∧ r.2.getD i none = some ctr := hdf.new_tags
    refine {
      lenA := hdf.lenA
      lenT := by rw [hdf.lenT]; exact hinv.lenT
      ctr_le := by have := hinv.ctr_le; omega
      tag_range := ?_
      below_tagged := ?_
      tagged_spent := fun i hi => hdf.tagged_spent i hi (by simp)
      untagged_intact := hdf.untagged_intact
      same_tag_reach := ?_
      tagged_closed := ?_
      adj_same_tag := ?_ }
    · intro i t hi
      by_cases hchg : r.2.getD i none = T.getD i none
      · rw [hchg] at hi
        have := hinv.tag_range i t hi
        omega
      · have hic := (hnew i hchg).2
        rw [hi] at hic
        have ht : t = ctr := Option.some.inj hic
        subst ht
        have := hinv.ctr_le
        omega
    · intro i hi
      by_cases his : i = s
      · subst his
        rw [hdf.seed_tag]
        rfl
      · have hilt : i < s := by omega
        have := hinv.below_tagged i hilt
        cases hTi : T.getD i none with
        | none => rw [hTi] at this; exact absurd this (by simp)
        | some t => rw [hmono i t hTi]; rfl
    · intro i j t hi hj
      cases hTi : T.getD i none with
      | some ti =>
        cases hTj : T.getD j none with
        | some tj =>
          rw [hmono i ti hTi] at hi
          rw [hmono j tj hTj] at hj
          have h1 : ti = t := Option.some.inj hi
          have h2 : tj = t := Option.some.inj hj
          have h3 : T.getD j none = some ti := by rw [hTj, h2, ← h1]
          exact hinv.same_tag_reach i j ti hTi h3
        | none =>
          exfalso
          have hchg : r.2.getD j none ≠ T.getD j none := by
            rw [hj, hTj]; simp
          have hjc := (hnew j hchg).2
          rw [hj] at hjc
          have ht : t = ctr := Option.some.inj hjc
          have hrange := hinv.tag_range i ti hTi
          rw [hmono i ti hTi] at hi
          have h1 : ti = t := Option.some.inj hi
          omega
      | none =>
        cases hTj : T.getD j none with
        | some tj =>
          exfalso
          have hchg : r.2.getD i none ≠ T.getD i none := by
            rw [hi, hTi]; simp
          have hic := (hnew i hchg).2
          rw [hi] at hic
          have ht : t = ctr := Option.some.inj hic
          have hrange := hinv.tag_range j tj hTj
          rw [hmono j tj hTj] at hj
          have h1 : tj = t := Option.some.inj hj
          omega
        | none =>
          have hchgi : r.2.getD i none ≠ T.getD i none := by
            rw [hi, hTi]; simp
          have hchgj : r.2.getD j none ≠ T.getD j none := by
            rw [hj, hTj]; simp
          have hri := hdf.reach i hTi (hnew i hchgi).2 |>.mono
            (fun a b h => h.le)
          have hrj := hdf.reach j hTj (hnew j hchgj).2 |>.mono
            (fun a b h => h.le)
          have hsymR := Relation.ReflTransGen.symmetric Hsym
          exact Relation.ReflTransGen.trans (hsymR hri) hrj
    · intro i j hi hE
      cases hTi : T.getD i none with
      | some ti =>
        have := hinv.tagged_closed i j (by rw [hTi]; rfl) hE
        cases hTj : T.getD j none with
        | none => rw [hTj] at this; exact absurd this (by simp)
        | some tj => rw [hmono j tj hTj]; rfl
      | none =>
        have hAi : r.1.getD i [] = [] := by
          have hTfi : (r.2.getD i none).isSome = true := hi
          exact hdf.tagged_spent i hTfi (by simp)
        obtain ⟨rest, hrest, hresttags⟩ := hdf.consumed i
        rw [hAi] at hrest
        simp only [List.nil_append] at hrest
        have hjmem : j ∈ rest := by rw [← hrest]; exact hE.2.2.1
        refine hresttags j hjmem hE.2.2.2 ?_
        rw [hdf.lenT, hinv.lenT]
        exact hE.2.1
    · intro i j t u hE hi hj
      cases hTi : T.getD i none with
      | some ti =>
        cases hTj : T.getD j none with
        | some tj =>
          rw [hmono i ti hTi] at hi
          rw [hmono j tj hTj] at hj
          have h1 : ti = t := Option.some.inj hi
          have h2 : tj = u := Option.some.inj hj
          rw [← h1, ← h2]
          exact hinv.adj_same_tag i j ti tj hE hTi hTj
        | none =>
          exfalso
          have := hinv.tagged_closed i j (by rw [hTi]; rfl) hE
          rw [hTj] at this
          exact absurd this (by simp)
      | none =>
        cases hTj : T.getD j none with
        | some tj =>
          exfalso
          have := hinv.tagged_closed j i (by rw [hTj]; rfl) (Hsym i j hE)
          rw [hTi] at this
          exact absurd this (by simp)
        | none =>
          have hchgi : r.2.getD i none ≠ T.getD i none := by
            rw [hi, hTi]; simp
          have hchgj : r.2.getD j none ≠ T.getD j none := by
            rw [hj, hTj]; simp
          have h1 := (hnew i hchgi).2
          have h2 := (hnew j hchgj).2
          rw [hi] at h1
          rw [hj] at h2
          have ht : t = ctr := Option.some.inj h1
          have hu : u = ctr := Option.some.inj h2
          rw [ht, hu]
  | case2 A T ctr s hs hnone ih =>
    intro hinv
    rw [ccGo]
    simp only [hs, dif_pos, hnone, if_neg]
    refine ih ?_
    refine {
      lenA := hinv.lenA
      lenT := hinv.lenT
      ctr_le := hinv.ctr_le
      tag_range := hinv.tag_range
      below_tagged := ?_
      tagged_spent := hinv.tagged_spent
      untagged_intact := hinv.untagged_intact
      same_tag_reach := hinv.same_tag_reach
      tagged_closed := hinv.tagged_closed
      adj_same_tag := hinv.adj_same_tag }
    intro i hi
    by_cases his : i = s
    · subst his
      cases hx : T.getD i (some 0) with
      | none => rw [hx] at hnone; exact absurd rfl hnone
      | some t =>
        have : T.getD i none = some t := by
          have hiT : i < T.length := hs
          rw [List.getD_eq_getElem?_getD, List.getElem?_eq_getElem hiT] at hx ⊢
          exact hx
        rw [this]
        rfl
    · exact hinv.below_tagged i (by omega)
  | case3 A T ctr s hs =>
    intro hinv
    rw [ccGo]
    simp only [hs, dif_neg]
    refine {
      lenA := hinv.lenA
      lenT := hinv.lenT
      ctr_le := hinv.ctr_le
      tag_range := hinv.tag_range
      below_tagged := ?_
      tagged_spent := hinv.tagged_spent
      untagged_intact := hinv.untagged_intact
      same_tag_reach := hinv.same_tag_reach
      tagged_closed := hinv.tagged_closed
      adj_same_tag := hinv.adj_same_tag }
    intro i hi
    have : T.length = A0.length := hinv.lenT
    exact hinv.below_tagged i (by omega)

theorem getD_replicate_none {n i : ℕ} :
    (List.replicate n (none : Option ℕ)).getD i none = none := by
  by_cases h : i < n
  · rw [List.getD_eq_getElem?_getD, List.getElem?_replicate]
    simp [h]
  · rw [getD_none_out_of_range]
    simp
    omega

/-- Partition correctness of the seed loop started on a fresh tag table:
every vertex receives a tag in `[ctr0, ctr_final)`, and two vertices share
a tag exactly when a path of accepted adjacency edges connects them. -/
theorem ccGo_spec (accept : ℕ → ℕ → Bool) (A0 : List (List ℕ)) (ctr0 : ℕ)
    (Hsym : ∀ i j, EdgeRel accept A0 i j → EdgeRel accept A0 j i) :
    (∀ i, i < A0.length →
      ∃ t, (ccGo accept A0 (List.replicate A0.length none) ctr0 0).2.1.getD i none
          = some t ∧ ctr0 ≤ t ∧
          t < (ccGo accept A0 (List.replicate A0.length none) ctr0 0).2.2) ∧
    (∀ i j, i < A0.length → j < A0.length →
      ((ccGo accept A0 (List.replicate A0.length none) ctr0 0).2.1.getD i none
          = (ccGo accept A0 (List.replicate A0.length none) ctr0 0).2.1.getD j none
        ↔ Relation.ReflTransGen (EdgeRel accept A0) i j)) ∧
    ctr0 ≤ (ccGo accept A0 (List.replicate A0.length none) ctr0 0).2.2 := by
  have hstart : CcInv accept A0 ctr0 A0 (List.replicate A0.length none) ctr0 0 := by
    refine {
      lenA := rfl
      lenT := by simp
      ctr_le := le_refl _
      tag_range := ?_
      below_tagged := by omega
      tagged_spent := ?_
      untagged_intact := fun i _ => rfl
      same_tag_reach := ?_
      tagged_closed := ?_
      adj_same_tag := ?_ }
    · intro i t hi
      rw [getD_replicate_none] at hi
      exact absurd hi (by simp)
    · intro i hi
      rw [getD_replicate_none] at hi
      exact absurd hi (by simp)
    · intro i j t hi
      rw [getD_replicate_none] at hi
      exact absurd hi (by simp)
    · intro i j hi
      rw [getD_replicate_none] at hi
      exact absurd hi (by simp)
    · intro i j t u _ hi
      rw [getD_replicate_none] at hi
      exact absurd hi (by simp)
  have hfin := ccGo_preserves accept A0 ctr0 Hsym A0
    (List.replicate A0.length none) ctr0 0 hstart
  have htotal : ∀ i, i < A0.length →
      ∃ t, (ccGo accept A0 (List.replicate A0.length none) ctr0 0).2.1.getD i none
        = some t ∧ ctr0 ≤ t ∧
        t < (ccGo accept A0 (List.replicate A0.length none) ctr0 0).2.2 := by
    intro i hi
    have h1 := hfin.below_tagged i hi
    cases hx : (ccGo accept A0 (List.replicate A0.length none) ctr0 0).2.1.getD
        i none with
    | none => rw [hx] at h1; exact absurd h1 (by simp)
    | some t =>
      exact ⟨t, rfl, hfin.tag_range i t hx⟩
  refine ⟨htotal, ?_, hfin.ctr_le⟩
  intro i j hi hj
  constructor
  · intro heq
    obtain ⟨t, ht, _⟩ := htotal i hi
    obtain ⟨u, hu, _⟩ := htotal j hj
    rw [ht, hu] at heq
    have : t = u := Option.some.inj heq
    subst this
    exact hfin.same_tag_reach i j t ht hu
  · intro hpath
    induction hpath with
    | refl => rfl
    | tail hik hE ihik =>
      rename_i k m
      have hkm : k < A0.length := hE.1
      have hmm : m < A0.length := hE.2.1
      obtain ⟨tk, htk, _⟩ := htotal k hkm
      obtain ⟨tm, htm, _⟩ := htotal m hmm
      rw [ihik hkm, htk, htm]
      rw [hfin.adj_same_tag k m tk tm hE htk htm]

end DfsCorrectness

section ConnectedComponents

variable {α : Type} [LinearOrderedCommRing α]

/-- The per-edge test of `RenderMesh.connected_facets` (rendermesh.py,
lines 941-953): the successor index must be a valid normals index (the
`except IndexError: continue` guard) and the dot product of the current
and successor facet normals must reach `split_angle_cos`. -/
def sp_accept (normals : List (V3 α)) (split_angle_cos : α) : ℕ → ℕ → Bool :=
  fun cur succ => decide (succ < normals.length) &&
    decide (dot3 (normals.getD cur zero3) (normals.getD succ zero3)
      ≥ split_angle_cos)

/-- `RenderMesh.connected_facets` (rendermesh.py, lines 898-966): one
seeded DFS with the angle test applied while traversing.  Adjacency rows
are Python sets there; the embedding consumes them as lists. -/
def connected_facets (normals : List (V3 α)) (split_angle_cos : α)
    (starting_facet_index : ℕ) (adjacents : List (List ℕ))
    (tags : List (Option ℕ)) (new_tag : ℕ) :
    List (List ℕ) × List (Option ℕ) :=
  connectedFacetsFrom (sp_accept normals split_angle_cos)
    starting_facet_index adjacents tags new_tag

/-- `RenderMesh.connected_components` (rendermesh.py, lines 1007-1037):
build the adjacency table with `adjacent_facets` (no angle filter there),
then scan facet indices in order, seeding `connected_facets` at each facet
still untagged, with dense tags from `itertools.count()`.  Python set
iteration order being unspecified, each adjacency set is consumed in
ascending order, on which no theorem depends.  Returns the tag table and
the number of tags used. -/
def connected_components (count_points : ℕ) (facets : List Facet)
    (normals : List (V3 α)) (split_angle_cos : α) : List (Option ℕ) × ℕ :=
  let adjacents := (adjacent_facets count_points facets).map
    (Finset.sort (· ≤ ·))
  let r := ccGo (sp_accept normals split_angle_cos) adjacents
    (List.replicate facets.length none) 0 0
  (r.2.1, r.2.2)

/-- `autosmooth.connected_components` (autosmooth.py, lines 332-361): the
same seed loop run by the mp code on explicit adjacency lists, with no
per-edge test (`_connected_facets` checks only the tag) and tags drawn
from the shared counter starting at `ctr`.  Returns the tag table and the
final counter value. -/
def as_connected_components (adjacents : List (List ℕ)) (ctr : ℕ) :
    List (Option ℕ) × ℕ :=
  let r := ccGo (fun _ _ => true) adjacents
    (List.replicate adjacents.length none) ctr 0
  (r.2.1, r.2.2)

end ConnectedComponents

section AdjacencyCharacterization

variable {α : Type} [LinearOrderedCommRing α]

/-- Well-formedness of the facet table: every point index of every facet
is a valid index into the point list. -/
def WfFacets (count_points : ℕ) (facets : List Facet) : Prop :=
  ∀ f ∈ facets, ∀ p ∈ f.toList, p < count_points

instance (count_points : ℕ) (facets : List Facet) :
    Decidable (WfFacets count_points facets) := by
  unfold WfFacets
  infer_instance

theorem mem_facets_per_point {count_points : ℕ} {facets : List Facet}
    {p i : ℕ} :
    i ∈ (facets_per_point count_points facets).getD p [] ↔
      p < count_points ∧ i < facets.length ∧
        p ∈ (facets.getD i (0, 0, 0)).toList := by
  unfold facets_per_point
  by_cases hp : p < count_points
  · rw [List.getD_eq_getElem?_getD, List.getElem?_map, List.getElem?_range hp]
    simp [List.mem_filter, List.mem_range, hp, and_assoc]
  · rw [List.getD_eq_getElem?_getD, List.getElem?_map,
      List.getElem?_eq_none (by simp only [List.length_range]; omega)]
    simp [hp]

theorem mem_adjacent_facets {count_points : ℕ} {facets : List Facet}
    (hwf : WfFacets count_points facets) {i o : ℕ} (hi : i < facets.length) :
    o ∈ (adjacent_facets count_points facets).getD i ∅ ↔
      o < facets.length ∧
        sharedCount (facets.getD i (0, 0, 0)) (facets.getD o (0, 0, 0)) = 2 := by
  unfold adjacent_facets
  rw [List.getD_eq_getElem?_getD, List.getElem?_map, List.getElem?_enum]
  rw [List.getElem?_eq_getElem hi]
  simp only [Option.map_some', Option.getD_some]
  have hfi : facets[i] = facets.getD i (0, 0, 0) := by
    rw [List.getD_eq_getElem?_getD, List.getElem?_eq_getElem hi]
    rfl
  rw [Finset.mem_biUnion]
  constructor
  · rintro ⟨q, hq, hmem⟩
    rw [List.mem_toFinset, List.mem_filter] at hmem
    obtain ⟨hfpp, hdec⟩ := hmem
    rw [decide_eq_true_iff] at hdec
    obtain ⟨_, holt, _⟩ := mem_facets_per_point.mp hfpp
    rw [hfi] at hdec
    exact ⟨holt, hdec⟩
  · rintro ⟨holt, hshared⟩
    have hcard : 0 < ((facets.getD i (0, 0, 0)).pts ∩
        (facets.getD o (0, 0, 0)).pts).card := by
      rw [sharedCount] at hshared
      omega
    obtain ⟨q, hq⟩ := Finset.card_pos.mp hcard
    rw [Finset.mem_inter] at hq
    refine ⟨q, ?_, ?_⟩
    · rw [← hfi] at hq
      exact hq.1
    · rw [List.mem_toFinset, List.mem_filter]
      refine ⟨?_, ?_⟩
      · rw [mem_facets_per_point]
        refine ⟨?_, holt, ?_⟩
        · have hfm : facets.getD i (0, 0, 0) ∈ facets := by
            rw [← hfi]
            exact List.getElem_mem hi
          exact hwf _ hfm q (by
            have := hq.1
            rw [Facet.pts, List.mem_toFinset] at this
            exact this)
        · have := hq.2
          rw [Facet.pts, List.mem_toFinset] at this
          exact this
      · rw [decide_eq_true_iff, hfi]
        exact hshared

end AdjacencyCharacterization

section MeshAdjacencyRelation

variable {α : Type} [LinearOrderedCommRing α]

/-- The adjacency relation in the sense of the spec's glossary: two facets
share exactly two point indices (one edge) and the dot product of their
unit normals reaches the split-angle cosine. -/
def MeshAdj (facets : List Facet) (normals : List (V3 α))
    (split_angle_cos : α) (i j : ℕ) : Prop :=
  i < facets.length ∧ j < facets.length ∧
  sharedCount (facets.getD i (0, 0, 0)) (facets.getD j (0, 0, 0)) = 2 ∧
  dot3 (normals.getD i zero3) (normals.getD j zero3) ≥ split_angle_cos

theorem sharedCount_comm (f g : Facet) : sharedCount f g = sharedCount g f := by
  rw [sharedCount, sharedCount, Finset.inter_comm]

theorem dot3_comm (u v : V3 α) : dot3 u v = dot3 v u := by
  unfold dot3
  ring

theorem MeshAdj_symm {facets : List Facet} {normals : List (V3 α)}
    {c : α} {i j : ℕ} (h : MeshAdj facets normals c i j) :
    MeshAdj facets normals c j i := by
  obtain ⟨h1, h2, h3, h4⟩ := h
  refine ⟨h2, h1, ?_, ?_⟩
  · rw [sharedCount_comm]
    exact h3
  · rw [dot3_comm]
    exact h4

theorem length_adjacent_facets {count_points : ℕ} {facets : List Facet} :
    (adjacent_facets count_points facets).length = facets.length := by
  unfold adjacent_facets
  simp

theorem mem_sorted_row {L : List (Finset ℕ)} {i j : ℕ} (hi : i < L.length) :
    j ∈ (L.map (Finset.sort (· ≤ ·))).getD i [] ↔ j ∈ L.getD i ∅ := by
  rw [List.getD_eq_getElem?_getD, List.getElem?_map,
    List.getElem?_eq_getElem hi, List.getD_eq_getElem?_getD,
    List.getElem?_eq_getElem hi]
  simp [Finset.mem_sort]

/-- The edge relation realized by the sp pipeline (adjacency table from
`adjacent_facets`, angle test inside `connected_facets`) is exactly the
glossary adjacency relation. -/
theorem sp_EdgeRel_iff_MeshAdj {count_points : ℕ} {facets : List Facet}
    {normals : List (V3 α)} {c : α}
    (hwf : WfFacets count_points facets)
    (hlen : normals.length = facets.length) (i j : ℕ) :
    EdgeRel (sp_accept normals c)
      ((adjacent_facets count_points facets).map (Finset.sort (· ≤ ·))) i j ↔
    MeshAdj facets normals c i j := by
  have hA0len : ((adjacent_facets count_points facets).map
      (Finset.sort (· ≤ ·))).length = facets.length := by
    rw [List.length_map, length_adjacent_facets]
  constructor
  · rintro ⟨h1, h2, h3, h4⟩
    rw [hA0len] at h1 h2
    rw [mem_sorted_row (by rw [length_adjacent_facets]; exact h1)] at h3
    have := (mem_adjacent_facets hwf h1).mp h3
    rw [sp_accept, Bool.and_eq_true, decide_eq_true_iff, decide_eq_true_iff]
      at h4
    exact ⟨h1, h2, this.2, h4.2⟩
  · rintro ⟨h1, h2, h3, h4⟩
    refine ⟨by rw [hA0len]; exact h1, by rw [hA0len]; exact h2, ?_, ?_⟩
    · rw [mem_sorted_row (by rw [length_adjacent_facets]; exact h1)]
      exact (mem_adjacent_facets hwf h1).mpr ⟨h2, h3⟩
    · rw [sp_accept, Bool.and_eq_true, decide_eq_true_iff, decide_eq_true_iff]
      exact ⟨by omega, h4⟩

end MeshAdjacencyRelation

section ClaimC3

/-- C3: for every mesh and the adjacency table the single-process
Connected-Components Partitioner builds for it, the tags that
`RenderMesh.connected_components` assigns satisfy: two facets receive the
same tag iff a path of adjacency edges (the spec's glossary relation:
share exactly two point indices and pass the angle test) connects them. -/
theorem C3_connected_components_partition {α : Type} [LinearOrderedCommRing α]
    (count_points : ℕ) (facets : List Facet) (normals : List (V3 α))
    (split_angle_cos : α)
    (hwf : WfFacets count_points facets)
    (hlen : normals.length = facets.length)
    (i j : ℕ) (hi : i < facets.length) (hj : j < facets.length) :
    ((connected_components count_points facets normals split_angle_cos).1.getD
        i none
      = (connected_components count_points facets normals
        split_angle_cos).1.getD j none)
    ↔ Relation.ReflTransGen (MeshAdj facets normals split_angle_cos) i j := by
  have hA0len : ((adjacent_facets count_points facets).map
      (Finset.sort (· ≤ ·))).length = facets.length := by
    rw [List.length_map, length_adjacent_facets]
  have Hsym : ∀ a b, EdgeRel (sp_accept normals split_angle_cos)
      ((adjacent_facets count_points facets).map (Finset.sort (· ≤ ·))) a b →
      EdgeRel (sp_accept normals split_angle_cos)
      ((adjacent_facets count_points facets).map (Finset.sort (· ≤ ·))) b a := by
    intro a b hab
    rw [sp_EdgeRel_iff_MeshAdj hwf hlen] at hab ⊢
    exact MeshAdj_symm hab
  have hspec := (ccGo_spec (sp_accept normals split_angle_cos)
    ((adjacent_facets count_points facets).map (Finset.sort (· ≤ ·))) 0
    Hsym).2.1 i j (by omega) (by omega)
  simp only [connected_components]
  rw [show facets.length = ((adjacent_facets count_points facets).map
    (Finset.sort (· ≤ ·))).length from hA0len.symm]
  rw [hspec]
  constructor
  · intro h
    exact h.mono (fun a b hab =>
      (sp_EdgeRel_iff_MeshAdj hwf hlen a b).mp hab)
  · intro h
    exact h.mono (fun a b hab =>
      (sp_EdgeRel_iff_MeshAdj hwf hlen a b).mpr hab)

/-- Witness for C3 at a concrete mesh: two facets sharing an edge with
equal normals, split-angle cosine 1/2. -/
theorem C3_witness :
    WfFacets 4 [(0, 1, 2), (0, 1, 3)] ∧
    (((connected_components 4 [(0, 1, 2), (0, 1, 3)]
        [((0 : ℤ), 0, 1), (0, 0, 1)] (1 / 2)).1.getD 0 none
      = (connected_components 4 [(0, 1, 2), (0, 1, 3)]
        [((0 : ℤ), 0, 1), (0, 0, 1)] (1 / 2)).1.getD 1 none)
    ↔ Relation.ReflTransGen
        (MeshAdj [(0, 1, 2), (0, 1, 3)] [((0 : ℤ), 0, 1), (0, 0, 1)] (1 / 2))
        0 1) :=
  ⟨by decide, C3_connected_components_partition 4 [(0, 1, 2), (0, 1, 3)]
    [((0 : ℤ), 0, 1), (0, 0, 1)] (1 / 2) (by decide) (by rfl) 0 1
    (by decide) (by decide)⟩

end ClaimC3

section ChunkAdjacency

variable {α : Type} [LinearOrderedCommRing α]

theorem mem_chunk_adjacents_of {count_points : ℕ} {facets : List Facet}
    {normals : List (V3 α)} {c : α} (hwf : WfFacets count_points facets)
    {g o : ℕ} (hg : g < facets.length) :
    o ∈ chunk_adjacents_of count_points facets normals c g ↔
      o < facets.length ∧
      sharedCount (facets.getD g (0, 0, 0)) (facets.getD o (0, 0, 0)) = 2 ∧
      dot3 (normals.getD g zero3) (normals.getD o zero3) ≥ c := by
  unfold chunk_adjacents_of
  rw [List.mem_filter, Bool.and_eq_true, decide_eq_true_iff,
    decide_eq_true_iff]
  constructor
  · rintro ⟨hcand, h2, h3⟩
    rw [List.mem_dedup, List.mem_flatten] at hcand
    obtain ⟨l, hl, hol⟩ := hcand
    rw [List.mem_map] at hl
    obtain ⟨p, _hp, rfl⟩ := hl
    obtain ⟨_, holt, _⟩ := mem_facets_per_point.mp hol
    exact ⟨holt, h2, h3⟩
  · rintro ⟨holt, h2, h3⟩
    refine ⟨?_, h2, h3⟩
    rw [List.mem_dedup, List.mem_flatten]
    have hcard : 0 < ((facets.getD g (0, 0, 0)).pts ∩
        (facets.getD o (0, 0, 0)).pts).card := by
      rw [sharedCount] at h2
      omega
    obtain ⟨q, hq⟩ := Finset.card_pos.mp hcard
    rw [Finset.mem_inter, Facet.pts, Facet.pts, List.mem_toFinset,
      List.mem_toFinset] at hq
    refine ⟨(facets_per_point count_points facets).getD q [], ?_, ?_⟩
    · rw [List.mem_map]
      exact ⟨q, hq.1, rfl⟩
    · rw [mem_facets_per_point]
      have hfm : facets.getD g (0, 0, 0) ∈ facets := by
        have hgg : facets.getD g (0, 0, 0) = facets[g] := by
          rw [List.getD_eq_getElem?_getD, List.getElem?_eq_getElem hg]
          rfl
        rw [hgg]
        exact List.getElem_mem hg
      exact ⟨hwf _ hfm q hq.1, holt, hq.2⟩

theorem chunk_adjacents_of_nodup {count_points : ℕ} {facets : List Facet}
    {normals : List (V3 α)} {c : α} {g : ℕ} :
    (chunk_adjacents_of count_points facets normals c g).Nodup := by
  unfold chunk_adjacents_of
  exact (List.nodup_dedup _).filter _

theorem compute_adjacents_row {count_points : ℕ} {facets : List Facet}
    {normals : List (V3 α)} {c : α} {start stop g : ℕ}
    (hg1 : start ≤ g) (hg2 : g < stop) :
    (compute_adjacents count_points facets normals c start stop).getD
        (g - start) [] =
      ((chunk_adjacents_of count_points facets normals c g).map
        (Int.ofNat ·) ++ [-1, -1, -1]).take 3 := by
  unfold compute_adjacents
  rw [List.getD_eq_getElem?_getD, List.getElem?_map,
    List.getElem?_range (by omega)]
  simp only [Option.map_some', Option.getD_some]
  rw [show start + (g - start) = g from by omega]
  rw [chunk_adjacents_of_nodup.dedup]

theorem filter_pad_ofNat_cons (a : ℕ) (l : List ℤ) :
    (((Int.ofNat a) :: l).filter fun z => decide (z ≠ -1)) =
      (Int.ofNat a) :: (l.filter fun z => decide (z ≠ -1)) := by
  rw [List.filter_cons_of_pos]
  show decide ((Int.ofNat a) ≠ -1) = true
  rw [decide_eq_true_iff, Int.ofNat_eq_natCast]
  omega

theorem filter_pad_neg_cons (l : List ℤ) :
    (((-1 : ℤ) :: l).filter fun z => decide (z ≠ -1)) =
      l.filter fun z => decide (z ≠ -1) := by
  rw [List.filter_cons_of_neg]
  simp

theorem take3_pad_filter (l : List ℕ) :
    (((l.map (Int.ofNat ·) ++ [-1, -1, -1]).take 3).filter
      fun z => decide (z ≠ -1)) = (l.take 3).map (Int.ofNat ·) := by
  match l with
  | [] => rfl
  | [a] =>
    show (([Int.ofNat a, -1, -1].filter fun z => decide (z ≠ -1)))
      = [Int.ofNat a]
    rw [filter_pad_ofNat_cons, filter_pad_neg_cons, filter_pad_neg_cons]
    rfl
  | [a, b] =>
    show (([Int.ofNat a, Int.ofNat b, -1].filter fun z => decide (z ≠ -1)))
      = [Int.ofNat a, Int.ofNat b]
    rw [filter_pad_ofNat_cons, filter_pad_ofNat_cons, filter_pad_neg_cons]
    rfl
  | a :: b :: d :: rest =>
    show (([Int.ofNat a, Int.ofNat b, Int.ofNat d].filter
        fun z => decide (z ≠ -1)))
      = [Int.ofNat a, Int.ofNat b, Int.ofNat d]
    rw [filter_pad_ofNat_cons, filter_pad_ofNat_cons, filter_pad_ofNat_cons]
    rfl

theorem mem_take3_pad {l : List ℕ} (hl : l.length ≤ 3) (j : ℕ) :
    (Int.ofNat j) ∈ ((l.map (Int.ofNat ·) ++ [-1, -1, -1]).take 3) ↔
      j ∈ l := by
  rw [List.take_append_eq_append_take]
  rw [List.take_of_length_le (by simpa using hl)]
  rw [List.mem_append]
  constructor
  · rintro (h | h)
    · rw [List.mem_map] at h
      obtain ⟨x, hx, hxe⟩ := h
      have hx2 : x = j := Int.ofNat.inj hxe
      rwa [← hx2]
    · exfalso
      have hmem := List.mem_of_mem_take h
      simp only [List.mem_cons, List.not_mem_nil, or_false] at hmem
      rcases hmem with h1 | h1 | h1 <;>
        (rw [Int.ofNat_eq_natCast] at h1; omega)
  · intro h
    left
    rw [List.mem_map]
    exact ⟨j, h, rfl⟩

/-- Membership in a `compute_adjacents` row, when at most 3 neighbors
qualify (no truncation). -/
theorem mem_compute_adjacents_row {count_points : ℕ} {facets : List Facet}
    {normals : List (V3 α)} {c : α} {start stop g : ℕ}
    (hwf : WfFacets count_points facets)
    (hg1 : start ≤ g) (hg2 : g < stop) (hg : g < facets.length)
    (hbound : (chunk_adjacents_of count_points facets normals c g).length ≤ 3)
    (j : ℕ) :
    (Int.ofNat j) ∈ (compute_adjacents count_points facets normals c
        start stop).getD (g - start) [] ↔
      j < facets.length ∧
      sharedCount (facets.getD g (0, 0, 0)) (facets.getD j (0, 0, 0)) = 2 ∧
      dot3 (normals.getD g zero3) (normals.getD j zero3) ≥ c := by
  rw [compute_adjacents_row hg1 hg2, mem_take3_pad hbound,
    mem_chunk_adjacents_of hwf hg]

end ChunkAdjacency

section BuilderClaims

variable {α : Type} [LinearOrderedCommRing α]

/-- Unconditional membership characterization of the incidence builder's
table: a row holds exactly the facets sharing two point indices with its
facet, with no angle condition. -/
theorem adjacent_facets_mem_iff {count_points : ℕ} {facets : List Facet}
    (hwf : WfFacets count_points facets) (i j : ℕ) :
    j ∈ (adjacent_facets count_points facets).getD i ∅ ↔
      i < facets.length ∧ j < facets.length ∧
        sharedCount (facets.getD i (0, 0, 0)) (facets.getD j (0, 0, 0)) = 2 := by
  by_cases hi : i < facets.length
  · rw [mem_adjacent_facets hwf hi]
    simp [hi]
  · rw [List.getD_eq_default _ _ (by rw [length_adjacent_facets]; omega)]
    simp [hi]

/-- Counterexample to C1 as stated: two facets sharing an edge but with
opposed normals, split-angle cosine 1.  `RenderMesh.adjacent_facets`
records them as mutually adjacent although the dot product of their
normals is below the threshold: the produced table is not the
`shared-edge AND angle` relation, because the function never reads its
`split_angle_cos` argument. -/
theorem C1_counterexample :
    1 ∈ (adjacent_facets 4 [(0, 1, 2), (0, 1, 3)]).getD 0 ∅ ∧
    ¬ (dot3 (([((0 : ℤ), 0, 1), (0, 0, -1)]).getD 0 zero3)
        (([((0 : ℤ), 0, 1), (0, 0, -1)]).getD 1 zero3) ≥ 1) := by
  decide

/-- C1, amended: the incidence-based builder's table records `A` adjacent
to `B` iff they share exactly two point indices — the angle predicate is
not part of the table (it is applied later, during traversal).  The
multiprocessing chunk builder's table records `A` adjacent to `B` iff they
share exactly two point indices AND their normals' dot product reaches
`cos(split angle)`, provided at most 3 neighbors of `A` qualify (beyond
that the row is truncated to the first 3). -/
theorem C1_amended (count_points : ℕ) (facets : List Facet)
    (normals : List (V3 α)) (split_angle_cos : α)
    (hwf : WfFacets count_points facets) :
    (∀ i j, j ∈ (adjacent_facets count_points facets).getD i ∅ ↔
      i < facets.length ∧ j < facets.length ∧
        sharedCount (facets.getD i (0, 0, 0)) (facets.getD j (0, 0, 0)) = 2) ∧
    (∀ start stop g j, start ≤ g → g < stop → g < facets.length →
      (chunk_adjacents_of count_points facets normals split_angle_cos
        g).length ≤ 3 →
      ((Int.ofNat j) ∈ (compute_adjacents count_points facets normals
          split_angle_cos start stop).getD (g - start) [] ↔
        j < facets.length ∧
        sharedCount (facets.getD g (0, 0, 0)) (facets.getD j (0, 0, 0)) = 2 ∧
        dot3 (normals.getD g zero3) (normals.getD j zero3)
          ≥ split_angle_cos)) := by
  constructor
  · exact adjacent_facets_mem_iff hwf
  · intro start stop g j hg1 hg2 hg hbound
    exact mem_compute_adjacents_row hwf hg1 hg2 hg hbound j

/-- Witness for the amended C1 at a concrete mesh. -/
theorem C1_amended_witness :
    WfFacets 4 [(0, 1, 2), (0, 1, 3)] ∧
    ((∀ i j, j ∈ (adjacent_facets 4 [(0, 1, 2), (0, 1, 3)]).getD i ∅ ↔
      i < 2 ∧ j < 2 ∧
        sharedCount ([((0 : ℕ), (1 : ℕ), (2 : ℕ)), (0, 1, 3)].getD i (0, 0, 0))
          ([((0 : ℕ), (1 : ℕ), (2 : ℕ)), (0, 1, 3)].getD j (0, 0, 0)) = 2) ∧
    (∀ start stop g j, start ≤ g → g < stop → g < 2 →
      (chunk_adjacents_of 4 [(0, 1, 2), (0, 1, 3)]
        [((0 : ℤ), 0, 1), (0, 0, -1)] 1 g).length ≤ 3 →
      ((Int.ofNat j) ∈ (compute_adjacents 4 [(0, 1, 2), (0, 1, 3)]
          [((0 : ℤ), 0, 1), (0, 0, -1)] 1 start stop).getD (g - start) [] ↔
        j < 2 ∧
        sharedCount ([((0 : ℕ), (1 : ℕ), (2 : ℕ)), (0, 1, 3)].getD g (0, 0, 0))
          ([((0 : ℕ), (1 : ℕ), (2 : ℕ)), (0, 1, 3)].getD j (0, 0, 0)) = 2 ∧
        dot3 (([((0 : ℤ), 0, 1), (0, 0, -1)]).getD g zero3)
          (([((0 : ℤ), 0, 1), (0, 0, -1)]).getD j zero3) ≥ 1))) :=
  ⟨by decide, C1_amended 4 [(0, 1, 2), (0, 1, 3)]
    [((0 : ℤ), 0, 1), (0, 0, -1)] 1 (by decide)⟩

/-- Counterexample to C4 as stated: five facets all sharing the edge
`{0, 1}` with identical normals.  Each has 4 qualifying neighbors; the
chunk builder truncates every row to 3, and the resulting table is
asymmetric: facet 0 appears in facet 4's row but not conversely. -/
theorem C4_counterexample :
    (0 : ℤ) ∈ (compute_adjacents 7
      [(0, 1, 2), (0, 1, 3), (0, 1, 4), (0, 1, 5), (0, 1, 6)]
      [((0 : ℤ), 0, 1), (0, 0, 1), (0, 0, 1), (0, 0, 1), (0, 0, 1)]
      0 0 5).getD 4 [] ∧
    ¬ ((4 : ℤ) ∈ (compute_adjacents 7
      [(0, 1, 2), (0, 1, 3), (0, 1, 4), (0, 1, 5), (0, 1, 6)]
      [((0 : ℤ), 0, 1), (0, 0, 1), (0, 0, 1), (0, 0, 1), (0, 0, 1)]
      0 0 5).getD 0 []) := by
  decide

/-- C4, amended: the incidence-based builder's table is always symmetric;
the multiprocessing chunk builder's table is symmetric provided every
facet has at most 3 qualifying neighbors (truncation to 3 can otherwise
break symmetry, as the counterexample shows). -/
theorem C4_amended (count_points : ℕ) (facets : List Facet)
    (normals : List (V3 α)) (split_angle_cos : α)
    (hwf : WfFacets count_points facets) :
    (∀ i j, j ∈ (adjacent_facets count_points facets).getD i ∅ ↔
      i ∈ (adjacent_facets count_points facets).getD j ∅) ∧
    ((∀ g, g < facets.length →
      (chunk_adjacents_of count_points facets normals split_angle_cos
        g).length ≤ 3) →
     ∀ i j s1 e1 s2 e2, s1 ≤ i → i < e1 → s2 ≤ j → j < e2 →
      i < facets.length → j < facets.length →
      ((Int.ofNat j) ∈ (compute_adjacents count_points facets normals
          split_angle_cos s1 e1).getD (i - s1) [] ↔
       (Int.ofNat i) ∈ (compute_adjacents count_points facets normals
          split_angle_cos s2 e2).getD (j - s2) [])) := by
  constructor
  · intro i j
    rw [adjacent_facets_mem_iff hwf, adjacent_facets_mem_iff hwf]
    rw [sharedCount_comm]
    tauto
  · intro hbound i j s1 e1 s2 e2 hi1 hi2 hj1 hj2 hi hj
    rw [mem_compute_adjacents_row hwf hi1 hi2 hi (hbound i hi),
      mem_compute_adjacents_row hwf hj1 hj2 hj (hbound j hj)]
    rw [sharedCount_comm, dot3_comm]
    tauto

/-- Witness for the amended C4 at a concrete mesh. -/
theorem C4_amended_witness :
    WfFacets 4 [(0, 1, 2), (0, 1, 3)] ∧
    ((∀ i j, j ∈ (adjacent_facets 4 [(0, 1, 2), (0, 1, 3)]).getD i ∅ ↔
      i ∈ (adjacent_facets 4 [(0, 1, 2), (0, 1, 3)]).getD j ∅) ∧
    ((∀ g, g < 2 →
      (chunk_adjacents_of 4 [(0, 1, 2), (0, 1, 3)]
        [((0 : ℤ), 0, 1), (0, 0, 1)] 0 g).length ≤ 3) →
     ∀ i j s1 e1 s2 e2, s1 ≤ i → i < e1 → s2 ≤ j → j < e2 →
      i < 2 → j < 2 →
      ((Int.ofNat j) ∈ (compute_adjacents 4 [(0, 1, 2), (0, 1, 3)]
          [((0 : ℤ), 0, 1), (0, 0, 1)] 0 s1 e1).getD (i - s1) [] ↔
       (Int.ofNat i) ∈ (compute_adjacents 4 [(0, 1, 2), (0, 1, 3)]
          [((0 : ℤ), 0, 1), (0, 0, 1)] 0 s2 e2).getD (j - s2) []))) :=
  ⟨by decide, C4_amended 4 [(0, 1, 2), (0, 1, 3)]
    [((0 : ℤ), 0, 1), (0, 0, 1)] 0 (by decide)⟩

/-- Counterexample to C5 as stated: in the five-facet configuration all
sharing one edge, the incidence-based builder retains 4 neighbors for
facet 0 — its rows are unbounded Python sets, with no truncation to 3. -/
theorem C5_counterexample :
    ((adjacent_facets 7
      [(0, 1, 2), (0, 1, 3), (0, 1, 4), (0, 1, 5), (0, 1, 6)]).getD 0 ∅).card
      = 4 := by
  decide

/-- C5, amended: the truncating builders — the multiprocessing chunk
builder and the vectorized builder — store at most 3 neighbor indices per
facet, namely the first 3 qualifying ones found, without error; the
incidence-based builder instead retains ALL qualifying neighbors
(unbounded). -/
theorem C5_amended (count_points : ℕ) (facets : List Facet)
    (normals : List (V3 α)) (split_angle_cos : α) (pairs : List (ℕ × ℕ))
    (hwf : WfFacets count_points facets) :
    (∀ start stop g, start ≤ g → g < stop →
      (((compute_adjacents count_points facets normals split_angle_cos
          start stop).getD (g - start) []).filter
            fun z => decide (z ≠ -1)) =
        ((chunk_adjacents_of count_points facets normals split_angle_cos
          g).take 3).map (Int.ofNat ·) ∧
      ((((compute_adjacents count_points facets normals split_angle_cos
          start stop).getD (g - start) []).filter
            fun z => decide (z ≠ -1)).length ≤ 3)) ∧
    (∀ k row, (k, row) ∈ compute_adjacents_np pairs →
      (row.filter fun z => decide (z ≠ -1)) =
        (((pairs.filter fun (p : ℕ × ℕ) => decide (p.1 = k)).map
          Prod.snd).take 3).map (Int.ofNat ·) ∧
      (row.filter fun z => decide (z ≠ -1)).length ≤ 3) ∧
    (∀ i j, j ∈ (adjacent_facets count_points facets).getD i ∅ ↔
      i < facets.length ∧ j < facets.length ∧
        sharedCount (facets.getD i (0, 0, 0))
          (facets.getD j (0, 0, 0)) = 2) := by
  refine ⟨?_, ?_, adjacent_facets_mem_iff hwf⟩
  · intro start stop g hg1 hg2
    rw [compute_adjacents_row hg1 hg2, take3_pad_filter]
    refine ⟨rfl, ?_⟩
    rw [List.length_map]
    have := List.length_take_le 3
      (chunk_adjacents_of count_points facets normals split_angle_cos g)
    omega
  · intro k row hmem
    unfold compute_adjacents_np at hmem
    rw [List.mem_map] at hmem
    obtain ⟨k', _hk', hke⟩ := hmem
    have hk : k' = k := congrArg Prod.fst hke
    subst hk
    have hrow : row = (((pairs.filter fun (p : ℕ × ℕ) =>
        decide (p.1 = k')).map fun (p : ℕ × ℕ) => (Int.ofNat p.2))
        ++ [-1, -1, -1]).take 3 := (congrArg Prod.snd hke).symm
    subst hrow
    have hmm : ((pairs.filter fun (p : ℕ × ℕ) => decide (p.1 = k')).map
        fun (p : ℕ × ℕ) => (Int.ofNat p.2)) =
        (((pairs.filter fun (p : ℕ × ℕ) => decide (p.1 = k')).map
          Prod.snd).map (Int.ofNat ·)) := by
      rw [List.map_map]
      rfl
    rw [hmm, take3_pad_filter]
    refine ⟨rfl, ?_⟩
    rw [List.length_map]
    have := List.length_take_le 3
      ((pairs.filter fun (p : ℕ × ℕ) => decide (p.1 = k')).map Prod.snd)
    omega

/-- Witness for the amended C5 at a concrete mesh and pair list. -/
theorem C5_amended_witness :
    WfFacets 7 [(0, 1, 2), (0, 1, 3), (0, 1, 4), (0, 1, 5), (0, 1, 6)] ∧
    ((((compute_adjacents 7
        [(0, 1, 2), (0, 1, 3), (0, 1, 4), (0, 1, 5), (0, 1, 6)]
        [((0 : ℤ), 0, 1), (0, 0, 1), (0, 0, 1), (0, 0, 1), (0, 0, 1)]
        0 0 5).getD 0 []).filter fun z => decide (z ≠ -1)) =
      ((chunk_adjacents_of 7
        [(0, 1, 2), (0, 1, 3), (0, 1, 4), (0, 1, 5), (0, 1, 6)]
        [((0 : ℤ), 0, 1), (0, 0, 1), (0, 0, 1), (0, 0, 1), (0, 0, 1)]
        0 0).take 3).map (Int.ofNat ·)) :=
  ⟨by decide,
    ((C5_amended 7 [(0, 1, 2), (0, 1, 3), (0, 1, 4), (0, 1, 5), (0, 1, 6)]
      [((0 : ℤ), 0, 1), (0, 0, 1), (0, 0, 1), (0, 0, 1), (0, 0, 1)]
      0 [] (by decide)).1 0 5 0 (by decide) (by decide)).1⟩

end BuilderClaims

section VertexSplitter

variable {α : Type} [LinearOrderedCommRing α]

/-- First-occurrence de-duplication: keep each element's FIRST occurrence,
in order — the iteration order of a Python dict whose keys were inserted
by traversing a list. -/
def dedupF {β : Type} [DecidableEq β] : List β → List β
  | [] => []
  | a :: l => a :: dedupF (l.filter fun b => decide (b ≠ a))
termination_by l => l.length
decreasing_by
  simp only [List.length_cons]
  exact Nat.lt_succ_of_le (List.length_filter_le _ _)

theorem dedupF_nil {β : Type} [DecidableEq β] :
    dedupF ([] : List β) = [] := by
  rw [dedupF]

theorem dedupF_cons {β : Type} [DecidableEq β] (a : β) (l : List β) :
    dedupF (a :: l) = a :: dedupF (l.filter fun b => decide (b ≠ a)) := by
  rw [dedupF]

theorem mem_dedupF {β : Type} [DecidableEq β] {x : β} {l : List β} :
    x ∈ dedupF l ↔ x ∈ l := by
  induction l using dedupF.induct with
  | case1 => rw [dedupF_nil]
  | case2 a l ih =>
    rw [dedupF_cons]
    simp only [List.mem_cons, ih, List.mem_filter, decide_eq_true_eq]
    by_cases hxa : x = a <;> simp [hxa]

theorem nodup_dedupF {β : Type} [DecidableEq β] (l : List β) :
    (dedupF l).Nodup := by
  induction l using dedupF.induct with
  | case1 =>
    rw [dedupF_nil]
    exact List.nodup_nil
  | case2 a l ih =>
    rw [dedupF_cons]
    refine List.nodup_cons.mpr ⟨?_, ih⟩
    intro hmem
    rw [mem_dedupF, List.mem_filter, decide_eq_true_eq] at hmem
    exact hmem.2 rfl

theorem dedupF_map_inj {β γ : Type} [DecidableEq β] [DecidableEq γ]
    {f : β → γ} (hf : Function.Injective f) (l : List β) :
    dedupF (l.map f) = (dedupF l).map f := by
  induction l using dedupF.induct with
  | case1 =>
    rw [List.map_nil, dedupF_nil, dedupF_nil, List.map_nil]
  | case2 a l ih =>
    simp only [List.map_cons]
    rw [dedupF_cons, dedupF_cons, List.map_cons]
    congr 1
    have hfil : (l.map f).filter (fun b => decide (b ≠ f a)) =
        (l.filter fun b => decide (b ≠ a)).map f := by
      rw [List.filter_map]
      congr 1
      apply List.filter_congr
      intro x _
      simp only [Function.comp_apply, decide_eq_decide]
      exact not_congr ⟨fun h => hf h, fun h => by rw [h]⟩
    rw [hfil, ih]

/-- Index of the first occurrence of `x` in `l` (the number that the
`newpoints` dict of `separate_connected_components` assigns to key `x`:
enumeration order of a Python dict is key insertion order). -/
def firstIdx (l : List (ℕ × ℕ)) (x : ℕ × ℕ) : ℕ :=
  l.findIdx fun y => decide (y = x)

theorem firstIdx_cons {y : ℕ × ℕ} {l : List (ℕ × ℕ)} {x : ℕ × ℕ} :
    firstIdx (y :: l) x = if y = x then 0 else firstIdx l x + 1 := by
  unfold firstIdx
  rw [List.findIdx_cons]
  by_cases h : y = x <;> simp [h]

theorem firstIdx_lt {l : List (ℕ × ℕ)} {x : ℕ × ℕ} (h : x ∈ l) :
    firstIdx l x < l.length := by
  induction l with
  | nil => simp at h
  | cons y tl ih =>
    rw [firstIdx_cons]
    by_cases hyx : y = x
    · simp [hyx]
    · simp only [hyx, if_false, List.length_cons]
      have hx : x ∈ tl := by
        rcases List.mem_cons.mp h with h1 | h1
        · exact absurd h1.symm hyx
        · exact h1
      have := ih hx
      omega

theorem getD_firstIdx {l : List (ℕ × ℕ)} {x : ℕ × ℕ} (h : x ∈ l)
    (d : ℕ × ℕ) : l.getD (firstIdx l x) d = x := by
  induction l with
  | nil => simp at h
  | cons y tl ih =>
    rw [firstIdx_cons]
    by_cases hyx : y = x
    · simp [hyx]
    · simp only [hyx, if_false, List.getD_cons_succ]
      have hx : x ∈ tl := by
        rcases List.mem_cons.mp h with h1 | h1
        · exact absurd h1.symm hyx
        · exact h1
      exact ih hx

theorem getD_map_firstIdx {β : Type} {l : List (ℕ × ℕ)} {x : ℕ × ℕ}
    (f : ℕ × ℕ → β) (h : x ∈ l) (d : β) :
    (l.map f).getD (firstIdx l x) d = f x := by
  have hlt := firstIdx_lt h
  rw [List.getD_eq_getElem?_getD, List.getElem?_map,
    List.getElem?_eq_getElem hlt]
  simp only [Option.map_some', Option.getD_some]
  have := getD_firstIdx h x
  rw [List.getD_eq_getElem?_getD, List.getElem?_eq_getElem hlt] at this
  simp only [Option.getD_some] at this
  rw [this]

/-- The `(point index, tag)` keys of the `newpoints` dict of
`separate_connected_components`, in facet-corner traversal order with
first occurrences kept (Python dict insertion order). -/
def newpoints_keys (facets : List Facet) (tags : List ℕ) : List (ℕ × ℕ) :=
  dedupF ((facets.zip tags).flatMap fun ft =>
    ft.1.toList.map fun p => (p, ft.2))

/-- `RenderMesh.separate_connected_components` (rendermesh.py, lines
1039-1078), the Vertex Splitter, minus the call to
`connected_components` (the tags are taken as input): build the
`newpoints` dict keyed by `(point index, tag)` pairs over all facet
corners, number the keys in insertion order, rebuild the point list (one
point per key, coordinates copied from the original point), rebuild the
uvmap the same way when present, and rewrite every facet corner to the
key's number.  Returns `(points, uvmap, facets)`. -/
def separate_connected_components (points : List (V3 α))
    (facets : List Facet) (uvmap : List (α × α)) (tags : List ℕ) :
    List (V3 α) × List (α × α) × List Facet :=
  let keys := newpoints_keys facets tags
  (keys.map fun pt => points.getD pt.1 zero3,
   if uvmap = [] then [] else keys.map fun pt => uvmap.getD pt.1 (0, 0),
   (facets.zip tags).map fun ft =>
     (firstIdx keys (ft.1.1, ft.2), firstIdx keys (ft.1.2.1, ft.2),
      firstIdx keys (ft.1.2.2, ft.2)))

theorem mem_newpoints_keys {facets : List Facet} {tags : List ℕ}
    {p t : ℕ} :
    (p, t) ∈ newpoints_keys facets tags ↔
      ∃ ft ∈ facets.zip tags, p ∈ ft.1.toList ∧ t = ft.2 := by
  unfold newpoints_keys
  rw [mem_dedupF, List.mem_flatMap]
  constructor
  · rintro ⟨ft, hft, hmem⟩
    rw [List.mem_map] at hmem
    obtain ⟨q, hq, hqe⟩ := hmem
    have h1 : q = p := congrArg Prod.fst hqe
    have h2 : ft.2 = t := congrArg Prod.snd hqe
    exact ⟨ft, hft, by rw [← h1]; exact hq, h2.symm⟩
  · rintro ⟨ft, hft, hp, ht⟩
    refine ⟨ft, hft, ?_⟩
    rw [List.mem_map]
    exact ⟨p, hp, by rw [ht]⟩

/-- C6: the Vertex Splitter produces exactly one new point per distinct
`(original point index, tag)` pair occurring in a facet (the key list has
no duplicates and holds exactly those pairs), with coordinates copied from
the original point; facets are rewritten to the new indices and every
rewritten facet index is below the new point count; the uv map, when
present, is expanded by the same key list. -/
theorem C6_separate_connected_components (points : List (V3 α))
    (facets : List Facet) (uvmap : List (α × α)) (tags : List ℕ)
    (_hlen : tags.length = facets.length) :
    ((newpoints_keys facets tags).Nodup ∧
     (∀ p t, (p, t) ∈ newpoints_keys facets tags ↔
        ∃ ft ∈ facets.zip tags, p ∈ ft.1.toList ∧ t = ft.2)) ∧
    (∀ p t, (p, t) ∈ newpoints_keys facets tags →
      (separate_connected_components points facets uvmap tags).1.getD
        (firstIdx (newpoints_keys facets tags) (p, t)) zero3
        = points.getD p zero3) ∧
    (∀ f ∈ (separate_connected_components points facets uvmap tags).2.2,
      ∀ q ∈ f.toList,
        q < (separate_connected_components points facets uvmap tags).1.length) ∧
    (uvmap ≠ [] → ∀ p t, (p, t) ∈ newpoints_keys facets tags →
      (separate_connected_components points facets uvmap tags).2.1.getD
        (firstIdx (newpoints_keys facets tags) (p, t)) (0, 0)
        = uvmap.getD p (0, 0)) := by
  refine ⟨⟨nodup_dedupF _, fun p t => mem_newpoints_keys⟩, ?_, ?_, ?_⟩
  · intro p t hmem
    exact getD_map_firstIdx _ hmem zero3
  · intro f hf q hq
    unfold separate_connected_components at hf ⊢
    simp only [List.length_map]
    rw [List.mem_map] at hf
    obtain ⟨ft, hft, hfe⟩ := hf
    have hkey : ∀ p ∈ ft.1.toList, (p, ft.2) ∈ newpoints_keys facets tags := by
      intro p hp
      rw [mem_newpoints_keys]
      exact ⟨ft, hft, hp, rfl⟩
    rw [← hfe] at hq
    simp only [Facet.toList, List.mem_cons, List.not_mem_nil, or_false] at hq
    rcases hq with hq | hq | hq <;>
      (rw [hq]; exact firstIdx_lt (hkey _ (by
        simp [Facet.toList])))
  · intro hne p t hmem
    unfold separate_connected_components
    simp only [hne, if_false]
    exact getD_map_firstIdx _ hmem (0, 0)

/-- Witness for C6 at a concrete mesh with two components and a uv map. -/
theorem C6_witness :
    (([0, 1] : List ℕ).length =
      ([((0 : ℕ), (1 : ℕ), (2 : ℕ)), (2, 1, 3)] : List Facet).length) ∧
    (∀ f ∈ (separate_connected_components
        [((0 : ℤ), 0, 0), (1, 0, 0), (0, 1, 0), (1, 1, 0)]
        [(0, 1, 2), (2, 1, 3)] [(0, 0), (1, 0), (0, 1), (1, 1)]
        [0, 1]).2.2,
      ∀ q ∈ f.toList,
        q < (separate_connected_components
        [((0 : ℤ), 0, 0), (1, 0, 0), (0, 1, 0), (1, 1, 0)]
        [(0, 1, 2), (2, 1, 3)] [(0, 0), (1, 0), (0, 1), (1, 1)]
        [0, 1]).1.length) :=
  ⟨by decide,
    (C6_separate_connected_components
      [((0 : ℤ), 0, 0), (1, 0, 0), (0, 1, 0), (1, 1, 0)]
      [(0, 1, 2), (2, 1, 3)] [(0, 0), (1, 0), (0, 1), (1, 1)]
      [0, 1] (by decide)).2.2.1⟩

end VertexSplitter

section UvTransform

/-- `math.radians`: degrees to radians. -/
noncomputable def radians (x : ℝ) : ℝ := x * (Real.pi / 180)

theorem getD_list8_0 {γ : Type} (x0 x1 x2 x3 x4 x5 x6 x7 d : γ) :
    ([x0, x1, x2, x3, x4, x5, x6, x7].getD 0 d) = x0 := rfl

theorem getD_list8_1 {γ : Type} (x0 x1 x2 x3 x4 x5 x6 x7 d : γ) :
    ([x0, x1, x2, x3, x4, x5, x6, x7].getD 1 d) = x1 := rfl

theorem getD_list8_2 {γ : Type} (x0 x1 x2 x3 x4 x5 x6 x7 d : γ) :
    ([x0, x1, x2, x3, x4, x5, x6, x7].getD 2 d) = x2 := rfl

theorem getD_list8_3 {γ : Type} (x0 x1 x2 x3 x4 x5 x6 x7 d : γ) :
    ([x0, x1, x2, x3, x4, x5, x6, x7].getD 3 d) = x3 := rfl

theorem getD_list8_4 {γ : Type} (x0 x1 x2 x3 x4 x5 x6 x7 d : γ) :
    ([x0, x1, x2, x3, x4, x5, x6, x7].getD 4 d) = x4 := rfl

theorem getD_list8_5 {γ : Type} (x0 x1 x2 x3 x4 x5 x6 x7 d : γ) :
    ([x0, x1, x2, x3, x4, x5, x6, x7].getD 5 d) = x5 := rfl

theorem getD_list8_6 {γ : Type} (x0 x1 x2 x3 x4 x5 x6 x7 d : γ) :
    ([x0, x1, x2, x3, x4, x5, x6, x7].getD 6 d) = x6 := rfl

theorem getD_list8_7 {γ : Type} (x0 x1 x2 x3 x4 x5 x6 x7 d : γ) :
    ([x0, x1, x2, x3, x4, x5, x6, x7].getD 7 d) = x7 := rfl

/-- `RenderMesh.uvtransform` (rendermesh.py, lines 444-535): the rotation
argument (degrees) is converted with `radians`, then one of the eight fast
paths `_000 .. _rst` is selected by the flag triple
`(rotate != 0, scale != 1, trans_x != 0 or trans_y != 0)` through
`index = sum(it.compress((4, 2, 1), flags))`; each path maps every uv pair
by exactly the arithmetic the source writes. -/
noncomputable def uvtransform (uvmap : List (ℝ × ℝ)) (translate : ℝ × ℝ)
    (rotate : ℝ) (scale : ℝ) : List (ℝ × ℝ) :=
  [uvmap,
   uvmap.map fun v => (v.1 + translate.1, v.2 + translate.2),
   uvmap.map fun v => (v.1 * scale, v.2 * scale),
   uvmap.map fun v => (v.1 * scale + translate.1, v.2 * scale + translate.2),
   uvmap.map fun v =>
     (v.1 * Real.cos (radians rotate) - v.2 * Real.sin (radians rotate),
      v.1 * Real.sin (radians rotate) + v.2 * Real.cos (radians rotate)),
   uvmap.map fun v =>
     (v.1 * Real.cos (radians rotate) - v.2 * Real.sin (radians rotate)
        + translate.1,
      v.1 * Real.sin (radians rotate) + v.2 * Real.cos (radians rotate)
        + translate.2),
   uvmap.map fun v =>
     (v.1 * (Real.cos (radians rotate) * scale)
        - v.2 * (Real.sin (radians rotate) * scale),
      v.1 * (Real.sin (radians rotate) * scale)
        + v.2 * (Real.cos (radians rotate) * scale)),
   uvmap.map fun v =>
     (v.1 * (Real.cos (radians rotate) * scale)
        - v.2 * (Real.sin (radians rotate) * scale) + translate.1,
      v.1 * (Real.sin (radians rotate) * scale)
        + v.2 * (Real.cos (radians rotate) * scale) + translate.2)].getD
    ((if radians rotate ≠ 0 then 4 else 0) + (if scale ≠ 1 then 2 else 0) +
     (if translate.1 ≠ 0 ∨ translate.2 ≠ 0 then 1 else 0)) []

/-- The reference composition the claim states: rotate, then scale, then
translate, applied to every uv pair. -/
noncomputable def uvtransform_reference (uvmap : List (ℝ × ℝ))
    (translate : ℝ × ℝ) (rotate : ℝ) (scale : ℝ) : List (ℝ × ℝ) :=
  uvmap.map fun v =>
    (v.1 * Real.cos (radians rotate) * scale
       - v.2 * Real.sin (radians rotate) * scale + translate.1,
     v.1 * Real.sin (radians rotate) * scale
       + v.2 * Real.cos (radians rotate) * scale + translate.2)

/-- C10: whichever fast path the flag dispatch selects, `uvtransform`
computes exactly the rotate-then-scale-then-translate composition on every
uv pair. -/
theorem C10_uvtransform_fast_paths (uvmap : List (ℝ × ℝ))
    (translate : ℝ × ℝ) (rotate : ℝ) (scale : ℝ) :
    uvtransform uvmap translate rotate scale =
      uvtransform_reference uvmap translate rotate scale := by
  unfold uvtransform uvtransform_reference
  by_cases hr : radians rotate = 0 <;> by_cases hs : scale = 1 <;>
    by_cases ht : translate.1 ≠ 0 ∨ translate.2 ≠ 0
  · rw [if_neg (by simp [hr]), if_neg (by simp [hs]), if_pos ht]
    rw [show ((0 : ℕ) + 0 + 1) = 1 from rfl, getD_list8_1]
    refine List.map_congr_left fun v _ => ?_
    rw [hr, hs]
    simp
  · rw [if_neg (by simp [hr]), if_neg (by simp [hs]), if_neg ht]
    push_neg at ht
    rw [show ((0 : ℕ) + 0 + 0) = 0 from rfl, getD_list8_0]
    nth_rewrite 1 [show uvmap = uvmap.map id from (List.map_id uvmap).symm]
    refine List.map_congr_left fun v _ => ?_
    rw [hr, hs, ht.1, ht.2]
    simp
  · rw [if_neg (by simp [hr]), if_pos hs, if_pos ht]
    rw [show ((0 : ℕ) + 2 + 1) = 3 from rfl, getD_list8_3]
    refine List.map_congr_left fun v _ => ?_
    rw [hr]
    simp
  · rw [if_neg (by simp [hr]), if_pos hs, if_neg ht]
    push_neg at ht
    rw [show ((0 : ℕ) + 2 + 0) = 2 from rfl, getD_list8_2]
    refine List.map_congr_left fun v _ => ?_
    rw [hr, ht.1, ht.2]
    simp
  · rw [if_pos hr, if_neg (by simp [hs]), if_pos ht]
    rw [show ((4 : ℕ) + 0 + 1) = 5 from rfl, getD_list8_5]
    refine List.map_congr_left fun v _ => ?_
    rw [hs]
    simp
  · rw [if_pos hr, if_neg (by simp [hs]), if_neg ht]
    push_neg at ht
    rw [show ((4 : ℕ) + 0 + 0) = 4 from rfl, getD_list8_4]
    refine List.map_congr_left fun v _ => ?_
    rw [hs, ht.1, ht.2]
    simp
  · rw [if_pos hr, if_pos hs, if_pos ht]
    rw [show ((4 : ℕ) + 2 + 1) = 7 from rfl, getD_list8_7]
    refine List.map_congr_left fun v _ => ?_
    simp only [Prod.mk.injEq]
    constructor <;> ring
  · rw [if_pos hr, if_pos hs, if_neg ht]
    push_neg at ht
    rw [show ((4 : ℕ) + 2 + 0) = 6 from rfl, getD_list8_6]
    refine List.map_congr_left fun v _ => ?_
    rw [ht.1, ht.2]
    simp only [Prod.mk.injEq, add_zero]
    constructor <;> ring

end UvTransform

section ObjFileWriting

/-- A filesystem path, split into directory and basename
(`os.path.dirname` / `os.path.basename`). -/
structure FPath where
  dir : String
  base : String
deriving DecidableEq

/-- A file-write event, for observing write ordering. -/
inductive FileEvent where
  | writeFile (path : FPath) (content : String)
deriving DecidableEq

/-- `RenderMesh.write_mtl` (rendermesh.py, lines 537-561), with `mtlfile`
given (the `mtlfile is None` temp-file branch abstracts the OS temp
directory and is not modelled): writes `newmtl <name>` followed by the
material content into the file and returns its name. -/
def write_mtl (name : String) (mtlcontent : String) (mtlfile : FPath) :
    FPath × FileEvent :=
  (mtlfile, .writeFile mtlfile ("newmtl " ++ name ++ "\n" ++ mtlcontent))

/-- `RenderMesh._write_objfile_sp` (rendermesh.py, lines 264-352),
restricted to what the claim observes: the ordered file writes and the
raised error.  When material content is present, `write_mtl` is called
FIRST (writing the MTL file), and only then are the two directories
compared, raising `ValueError` on mismatch; otherwise the assembled OBJ
text (abstracted here as `objcontent`) is written to the OBJ file.
Returns the events that happened, in order, and the error if raised. -/
def write_objfile_sp (objfile : FPath) (mtlfile : FPath) (mtlname : String)
    (mtlcontent : Option String) (objcontent : String) :
    List FileEvent × Option String :=
  match mtlcontent with
  | some content =>
    let r := write_mtl mtlname content mtlfile
    if r.1.dir ≠ objfile.dir then
      ([r.2], some "OBJ and MTL files shoud be in the same dir")
    else
      ([r.2, .writeFile objfile objcontent], none)
  | none => ([.writeFile objfile objcontent], none)

/-- Counterexample to C8 as stated: with the OBJ file in directory `a` and
the MTL file in directory `b`, the operation does raise the fatal error,
but the MTL file has already been written when it does — the error is not
surfaced before any file is written. -/
theorem C8_counterexample :
    ((write_objfile_sp (FPath.mk "a" "x.obj") (FPath.mk "b" "y.mtl") "m"
      (some "Kd 1 0 0") "v 0 0 0").2).isSome ∧
    ¬ ((write_objfile_sp (FPath.mk "a" "x.obj") (FPath.mk "b" "y.mtl") "m"
      (some "Kd 1 0 0") "v 0 0 0").1 = []) := by
  decide

/-- C8, amended: when the requested OBJ and MTL files lie in different
directories (and material content is given), the operation raises the
fatal error before the OBJ file content is written — but the MTL file has
already been written at that point (the single event of the trace). -/
theorem C8_amended (objfile mtlfile : FPath) (mtlname content
    objcontent : String) (hdir : mtlfile.dir ≠ objfile.dir) :
    (write_objfile_sp objfile mtlfile mtlname (some content) objcontent).2
      = some "OBJ and MTL files shoud be in the same dir" ∧
    (write_objfile_sp objfile mtlfile mtlname (some content) objcontent).1
      = [FileEvent.writeFile mtlfile
          ("newmtl " ++ mtlname ++ "\n" ++ content)] := by
  unfold write_objfile_sp write_mtl
  simp [hdir]

/-- Witness for the amended C8 at concrete paths. -/
theorem C8_amended_witness :
    (FPath.mk "b" "y.mtl").dir ≠ (FPath.mk "a" "x.obj").dir ∧
    ((write_objfile_sp (FPath.mk "a" "x.obj") (FPath.mk "b" "y.mtl") "m"
        (some "Kd 1 0 0") "v 0 0 0").2
      = some "OBJ and MTL files shoud be in the same dir" ∧
    (write_objfile_sp (FPath.mk "a" "x.obj") (FPath.mk "b" "y.mtl") "m"
        (some "Kd 1 0 0") "v 0 0 0").1
      = [FileEvent.writeFile (FPath.mk "b" "y.mtl")
          ("newmtl " ++ "m" ++ "\n" ++ "Kd 1 0 0")]) :=
  ⟨by decide, C8_amended (FPath.mk "a" "x.obj") (FPath.mk "b" "y.mtl") "m"
    "Kd 1 0 0" "v 0 0 0" (by decide)⟩

end ObjFileWriting

section VertexNormals

/-- Componentwise difference of ℝ triples. -/
def sub3 (u v : V3 ℝ) : V3 ℝ := (u.1 - v.1, u.2.1 - v.2.1, u.2.2 - v.2.2)

/-- Euclidean norm of an ℝ triple. -/
noncomputable def norm3 (v : V3 ℝ) : ℝ := Real.sqrt (dot3 v v)

/-- Modelled from the spec: `vector3d.safe_normalize` (the `vector3d`
module is not among the provided sources) — normalize, mapping a
zero-length vector to the zero vector instead of failing. -/
noncomputable def safe_normalize (v : V3 ℝ) : V3 ℝ :=
  if norm3 v = 0 then zero3 else fmul3 v (norm3 v)⁻¹

/-- Clip a scalar to `[-1, 1]` (the spec's clipped dot product,
`np.clip(-1.0, 1.0)` in the numpy path). -/
noncomputable def clip1 (x : ℝ) : ℝ := max (-1) (min x 1)

/-- Interior angle of a triangle at vertex `a` (the other vertices being
`b` and `c`): arccos of the clipped dot product of the safely normalized
edge vectors.  Modelled from the spec: the per-vertex angle of
`vector3d.angles`. -/
noncomputable def corner_angle (a b c : V3 ℝ) : ℝ :=
  Real.arccos (clip1 (dot3 (safe_normalize (sub3 b a))
    (safe_normalize (sub3 c a))))

/-- Modelled from the spec: `vector3d.angles` — the interior angles at the
triangle's three vertices, in vertex order. -/
noncomputable def angles3 (t : V3 ℝ × V3 ℝ × V3 ℝ) : ℝ × ℝ × ℝ :=
  (corner_angle t.1 t.2.1 t.2.2, corner_angle t.2.1 t.1 t.2.2,
   corner_angle t.2.2 t.1 t.2.1)

/-- Scatter-accumulate weighted normals into a per-point table:
`vnorms[point_index] = add(vnorms[point_index], weighted_vnorm)` iterated
over a contribution list. -/
noncomputable def scatterAdd (contribs : List (ℕ × V3 ℝ)) (init : List (V3 ℝ)) :
    List (V3 ℝ) :=
  contribs.foldl (fun vn pw => vn.set pw.1 (add3 (vn.getD pw.1 zero3) pw.2))
    init

/-- Per-corner contributions of `RenderMesh.compute_vnormals`
(rendermesh.py, lines 832-862): for each facet in order, for each of its
three corners in order, the pair of the corner's point index and the facet
normal scaled by (corner angle × facet area)
(`zip(facet, angles)` with `fmul(normal, angle * area)`). -/
noncomputable def vnormal_contribs (points : List (V3 ℝ))
    (facets : List Facet) (normals : List (V3 ℝ)) (areas : List ℝ) :
    List (ℕ × V3 ℝ) :=
  (List.range facets.length).flatMap fun index =>
    let facet := facets.getD index (0, 0, 0)
    let normal := normals.getD index zero3
    let area := areas.getD index 0
    let angs := angles3 (points.getD facet.1 zero3,
      points.getD facet.2.1 zero3, points.getD facet.2.2 zero3)
    [(facet.1, fmul3 normal (angs.1 * area)),
     (facet.2.1, fmul3 normal (angs.2.1 * area)),
     (facet.2.2, fmul3 normal (angs.2.2 * area))]

/-- `RenderMesh.compute_vnormals` (rendermesh.py, lines 832-862): scatter
the per-corner weighted normals into a zero-initialized per-point table,
then safely normalize every entry. -/
noncomputable def compute_vnormals (points : List (V3 ℝ))
    (facets : List Facet) (normals : List (V3 ℝ)) (areas : List ℝ) :
    List (V3 ℝ) :=
  (scatterAdd (vnormal_contribs points facets normals areas)
    (List.replicate points.length zero3)).map safe_normalize

end VertexNormals

section AngleGeometry

end AngleGeometry

section NumpyWeighter

end NumpyWeighter

section ClaimC9

variable {α : Type} [LinearOrderedCommRing α]

/-- The tag-table length is preserved by the component loop. -/
theorem ccGo_length_T (accept : ℕ → ℕ → Bool) (A : List (List ℕ))
    (T : List (Option ℕ)) (ctr s : ℕ) :
    (ccGo accept A T ctr s).2.1.length = T.length := by
  induction A, T, ctr, s using ccGo.induct accept with
  | case1 A T ctr s h hu r ih =>
    rw [ccGo, dif_pos h, if_pos hu]
    rw [show r = connectedFacetsFrom accept s A T ctr from rfl] at ih
    rw [ih]
    unfold connectedFacetsFrom
    rw [cfGo_length_T]
    simp
  | case2 A T ctr s h hu ih =>
    rw [ccGo, dif_pos h, if_neg hu]
    exact ih
  | case3 A T ctr s h =>
    rw [ccGo, dif_neg h]

/-- In a duplicate-free list, an element's first index is the (unique)
position where it sits. -/
theorem firstIdx_eq_of_nodup {K : List (ℕ × ℕ)} {q : ℕ} {x : ℕ × ℕ}
    (hnd : K.Nodup) (hq : q < K.length) (hx : K.getD q (0, 0) = x) :
    firstIdx K x = q := by
  induction K generalizing q with
  | nil => simp at hq
  | cons y tl ih =>
    rw [firstIdx_cons]
    cases q with
    | zero =>
      rw [List.getD_cons_zero] at hx
      rw [if_pos hx]
    | succ q' =>
      rw [List.getD_cons_succ] at hx
      have hq' : q' < tl.length := by
        rw [List.length_cons] at hq
        omega
      have hyx : y ≠ x := by
        intro he
        have hgg : tl.getD q' (0, 0) = tl[q'] := by
          rw [List.getD_eq_getElem?_getD, List.getElem?_eq_getElem hq']
          rfl
        have hmem : x ∈ tl := by
          rw [← hx, hgg]
          exact List.getElem_mem hq'
        exact (List.nodup_cons.mp hnd).1 (he ▸ hmem)
      rw [if_neg hyx, ih (List.nodup_cons.mp hnd).2 hq' hx]

theorem firstIdx_range_pair {k q t0 : ℕ} (hq : q < k) :
    firstIdx ((List.range k).map fun i => (i, t0)) (q, t0) = q := by
  apply firstIdx_eq_of_nodup
  · exact List.Nodup.map (fun a b h => congrArg Prod.fst h)
      (List.nodup_range k)
  · rw [List.length_map, List.length_range]
    exact hq
  · rw [List.getD_eq_getElem?_getD, List.getElem?_map,
      List.getElem?_range hq]
    rfl

/-- Renumbering a traversal list by the first-occurrence index of its
entries and de-duplicating again yields exactly `0, 1, 2, …`: the new
indices occur, first, in increasing order. -/
theorem dedupF_map_firstIdx (L : List (ℕ × ℕ)) :
    dedupF (L.map (firstIdx (dedupF L))) = List.range (dedupF L).length := by
  induction L using dedupF.induct with
  | case1 => simp [dedupF_nil]
  | case2 a l ih =>
    rw [dedupF_cons]
    have hfa : firstIdx (a :: dedupF (l.filter fun b => decide (b ≠ a))) a
        = 0 := by
      rw [firstIdx_cons, if_pos rfl]
    rw [List.map_cons, hfa, dedupF_cons, List.length_cons,
      List.range_succ_eq_map]
    congr 1
    rw [List.filter_map]
    have hpred : l.filter ((fun b => decide (b ≠ 0)) ∘
        (firstIdx (a :: dedupF (l.filter fun b => decide (b ≠ a))))) =
        l.filter fun b => decide (b ≠ a) := by
      apply List.filter_congr
      intro x _
      simp only [Function.comp_apply, decide_eq_decide]
      rw [firstIdx_cons]
      by_cases hxa : a = x
      · rw [if_pos hxa]
        exact iff_of_false (by simp) (fun h => h hxa.symm)
      · rw [if_neg hxa]
        exact iff_of_true (by omega) (fun h => hxa h.symm)
    rw [hpred]
    have hmapeq : (l.filter fun b => decide (b ≠ a)).map
        (firstIdx (a :: dedupF (l.filter fun b => decide (b ≠ a)))) =
        ((l.filter fun b => decide (b ≠ a)).map
          (firstIdx (dedupF (l.filter fun b => decide (b ≠ a))))).map
          Nat.succ := by
      rw [List.map_map]
      apply List.map_congr_left
      intro x hx
      rw [List.mem_filter, decide_eq_true_eq] at hx
      simp only [Function.comp_apply]
      rw [firstIdx_cons, if_neg (fun h => hx.2 h.symm)]
    rw [hmapeq, dedupF_map_inj (fun a b h => by omega), ih]

theorem map_getD_range {β : Type} (l : List β) (d : β) :
    (List.range l.length).map (fun i => l.getD i d) = l := by
  induction l with
  | nil => rfl
  | cons a l ih =>
    rw [List.length_cons, List.range_succ_eq_map, List.map_cons,
      List.map_map]
    have h1 : ((fun i => (a :: l).getD i d) ∘ Nat.succ) =
        fun i => l.getD i d := by
      funext i
      rfl
    rw [h1, ih]
    rfl

theorem zip_replicate {β γ : Type} (l : List β) (a : γ) :
    l.zip (List.replicate l.length a) = l.map fun x => (x, a) := by
  induction l with
  | nil => rfl
  | cons x l ih =>
    rw [List.length_cons, List.replicate_succ, List.zip_cons_cons,
      List.map_cons, ih]

theorem zip_flatMap_replicate (F : List Facet) (t0 : ℕ) :
    ((F.zip (List.replicate F.length t0)).flatMap fun ft =>
      ft.1.toList.map fun p => (p, ft.2)) =
    (F.flatMap Facet.toList).map fun q => (q, t0) := by
  induction F with
  | nil => rfl
  | cons f F ih =>
    rw [List.length_cons, List.replicate_succ, List.zip_cons_cons,
      List.flatMap_cons, List.flatMap_cons, List.map_append, ih]

/-- The corner traversal of the rewritten facets is the original
`(point, tag)` traversal renumbered by first-occurrence index. -/
theorem separate_corners_eq (points : List (V3 α)) (facets : List Facet)
    (uvmap : List (α × α)) (tags : List ℕ) :
    ((separate_connected_components points facets uvmap tags).2.2.flatMap
      Facet.toList) =
    ((facets.zip tags).flatMap fun ft =>
      ft.1.toList.map fun p => (p, ft.2)).map
        (firstIdx (newpoints_keys facets tags)) := by
  show ((facets.zip tags).map fun ft =>
      ((firstIdx (newpoints_keys facets tags) (ft.1.1, ft.2),
        firstIdx (newpoints_keys facets tags) (ft.1.2.1, ft.2),
        firstIdx (newpoints_keys facets tags) (ft.1.2.2, ft.2)) :
        Facet)).flatMap Facet.toList = _
  generalize newpoints_keys facets tags = K
  generalize facets.zip tags = Z
  induction Z with
  | nil => rfl
  | cons z Z ih =>
    simp only [List.map_cons, List.flatMap_cons, List.map_append]
    rw [ih]
    rfl

/-- Every rewritten facet corner is a valid index into the key list. -/
theorem separate_corner_lt (points : List (V3 α)) (facets : List Facet)
    (uvmap : List (α × α)) (tags : List ℕ) :
    ∀ f ∈ (separate_connected_components points facets uvmap tags).2.2,
      ∀ q ∈ f.toList, q < (newpoints_keys facets tags).length := by
  intro f hf q hq
  unfold separate_connected_components at hf
  rw [List.mem_map] at hf
  obtain ⟨ft, hft, hfe⟩ := hf
  have hkey : ∀ p ∈ ft.1.toList, (p, ft.2) ∈ newpoints_keys facets tags := by
    intro p hp
    rw [mem_newpoints_keys]
    exact ⟨ft, hft, hp, rfl⟩
  rw [← hfe] at hq
  simp only [Facet.toList, List.mem_cons, List.not_mem_nil, or_false] at hq
  rcases hq with hq | hq | hq <;>
    (rw [hq]; exact firstIdx_lt (hkey _ (by simp [Facet.toList])))

/-- Re-running the key construction on a split mesh with one constant tag
yields the keys `(0, t0), (1, t0), …` in order. -/
theorem newpoints_keys_idem (points : List (V3 α)) (facets : List Facet)
    (uvmap : List (α × α)) (tags : List ℕ) (t0 : ℕ) :
    newpoints_keys (separate_connected_components points facets uvmap
        tags).2.2
      (List.replicate (separate_connected_components points facets uvmap
        tags).2.2.length t0) =
    (List.range (newpoints_keys facets tags).length).map fun i => (i, t0) := by
  have hL : newpoints_keys facets tags =
      dedupF ((facets.zip tags).flatMap fun ft =>
        ft.1.toList.map fun p => (p, ft.2)) := rfl
  rw [show newpoints_keys (separate_connected_components points facets uvmap
        tags).2.2
      (List.replicate (separate_connected_components points facets uvmap
        tags).2.2.length t0) =
    dedupF (((separate_connected_components points facets uvmap
        tags).2.2.zip
      (List.replicate (separate_connected_components points facets uvmap
        tags).2.2.length t0)).flatMap fun ft =>
      ft.1.toList.map fun p => (p, ft.2)) from rfl]
  rw [zip_flatMap_replicate, separate_corners_eq points facets uvmap tags,
    dedupF_map_inj (fun a b h => congrArg Prod.fst h), hL,
    dedupF_map_firstIdx]

/-- The splitter leaves a mesh unchanged whenever its point list, uv map
and facet corners are already aligned with the key numbering and every
facet carries one constant tag. -/
theorem separate_replicate_fixed (P1 : List (V3 α)) (F1 : List Facet)
    (U1 : List (α × α)) (t0 k : ℕ)
    (h1 : P1.length = k)
    (h2 : U1 ≠ [] → U1.length = k)
    (h3 : ∀ f ∈ F1, ∀ q ∈ f.toList, q < k)
    (h4 : newpoints_keys F1 (List.replicate F1.length t0) =
      (List.range k).map fun i => (i, t0)) :
    separate_connected_components P1 F1 U1 (List.replicate F1.length t0) =
      (P1, U1, F1) := by
  have hstep : separate_connected_components P1 F1 U1
      (List.replicate F1.length t0) =
      ((newpoints_keys F1 (List.replicate F1.length t0)).map fun pt =>
        P1.getD pt.1 zero3,
       if U1 = [] then [] else
        (newpoints_keys F1 (List.replicate F1.length t0)).map fun pt =>
          U1.getD pt.1 (0, 0),
       (F1.zip (List.replicate F1.length t0)).map fun ft =>
         (firstIdx (newpoints_keys F1 (List.replicate F1.length t0))
            (ft.1.1, ft.2),
          firstIdx (newpoints_keys F1 (List.replicate F1.length t0))
            (ft.1.2.1, ft.2),
          firstIdx (newpoints_keys F1 (List.replicate F1.length t0))
            (ft.1.2.2, ft.2))) := rfl
  rw [hstep, h4]
  simp only [Prod.mk.injEq]
  refine ⟨?_, ?_, ?_⟩
  · rw [List.map_map,
      show ((fun pt : ℕ × ℕ => P1.getD pt.1 zero3) ∘ fun i => (i, t0)) =
        fun i => P1.getD i zero3 from rfl, ← h1]
    exact map_getD_range P1 zero3
  · by_cases hU : U1 = []
    · rw [if_pos hU, hU]
    · rw [if_neg hU, List.map_map,
        show ((fun pt : ℕ × ℕ => U1.getD pt.1 (0, 0)) ∘ fun i => (i, t0)) =
          fun i => U1.getD i (0, 0) from rfl, ← h2 hU]
      exact map_getD_range U1 (0, 0)
  · rw [zip_replicate, List.map_map]
    have hcongr : ∀ f ∈ F1,
        ((fun ft : Facet × ℕ =>
          ((firstIdx ((List.range k).map fun i => (i, t0)) (ft.1.1, ft.2),
            firstIdx ((List.range k).map fun i => (i, t0)) (ft.1.2.1, ft.2),
            firstIdx ((List.range k).map fun i => (i, t0)) (ft.1.2.2, ft.2)) :
            Facet)) ∘ fun f => (f, t0)) f = (fun f => f) f := by
      intro f hf
      simp only [Function.comp_apply]
      have hc := h3 f hf
      rw [firstIdx_range_pair (hc f.1 (by simp [Facet.toList])),
        firstIdx_range_pair (hc f.2.1 (by simp [Facet.toList])),
        firstIdx_range_pair (hc f.2.2 (by simp [Facet.toList]))]
    rw [List.map_congr_left hcongr]
    exact List.map_id' F1

/-- Splitting an already-split mesh with one constant tag changes
nothing: the splitter is idempotent once the mesh has a single
component. -/
theorem separate_idempotent (points : List (V3 α)) (facets : List Facet)
    (uvmap : List (α × α)) (tags : List ℕ) (t0 : ℕ) :
    separate_connected_components
      (separate_connected_components points facets uvmap tags).1
      (separate_connected_components points facets uvmap tags).2.2
      (separate_connected_components points facets uvmap tags).2.1
      (List.replicate
        (separate_connected_components points facets uvmap tags).2.2.length
        t0)
    = separate_connected_components points facets uvmap tags := by
  apply separate_replicate_fixed _ _ _ _ ((newpoints_keys facets tags).length)
  · show ((newpoints_keys facets tags).map fun pt =>
      points.getD pt.1 zero3).length = _
    rw [List.length_map]
  · intro hne
    by_cases huv : uvmap = []
    · exfalso
      apply hne
      show (if uvmap = [] then [] else (newpoints_keys facets tags).map
        fun pt => uvmap.getD pt.1 (0, 0)) = []
      rw [if_pos huv]
    · show (if uvmap = [] then [] else (newpoints_keys facets tags).map
        fun pt => uvmap.getD pt.1 (0, 0)).length = _
      rw [if_neg huv, List.length_map]
  · exact separate_corner_lt points facets uvmap tags
  · exact newpoints_keys_idem points facets uvmap tags t0

/-- On a connected mesh the single-process partitioner assigns one and
the same tag to every facet. -/
theorem connected_components_single (count_points : ℕ) (facets : List Facet)
    (normals : List (V3 α)) (c : α)
    (hwf : WfFacets count_points facets)
    (hlen : normals.length = facets.length)
    (hconn : ∀ j, j < facets.length →
      Relation.ReflTransGen (MeshAdj facets normals c) 0 j) :
    ∃ t0, (connected_components count_points facets normals c).1 =
      List.replicate facets.length (some t0) := by
  have hA0len : ((adjacent_facets count_points facets).map
      (Finset.sort (· ≤ ·))).length = facets.length := by
    rw [List.length_map, length_adjacent_facets]
  have Hsym : ∀ a b, EdgeRel (sp_accept normals c)
      ((adjacent_facets count_points facets).map (Finset.sort (· ≤ ·))) a b →
      EdgeRel (sp_accept normals c)
      ((adjacent_facets count_points facets).map
        (Finset.sort (· ≤ ·))) b a := by
    intro a b hab
    rw [sp_EdgeRel_iff_MeshAdj hwf hlen] at hab ⊢
    exact MeshAdj_symm hab
  have hspec := ccGo_spec (sp_accept normals c)
    ((adjacent_facets count_points facets).map (Finset.sort (· ≤ ·))) 0 Hsym
  have hlenT : (connected_components count_points facets normals
      c).1.length = facets.length := by
    simp only [connected_components]
    rw [ccGo_length_T, List.length_replicate]
  by_cases hn : facets.length = 0
  · refine ⟨0, ?_⟩
    rw [List.eq_replicate_iff]
    refine ⟨by rw [hlenT], ?_⟩
    intro b hb
    exfalso
    have := List.length_pos_of_mem hb
    omega
  · have h0 : 0 < facets.length := Nat.pos_of_ne_zero hn
    have hkey : ∀ i, i < facets.length →
        (connected_components count_points facets normals c).1.getD i none =
        (connected_components count_points facets normals
          c).1.getD 0 none := by
      intro i hi
      simp only [connected_components]
      rw [show facets.length = ((adjacent_facets count_points facets).map
        (Finset.sort (· ≤ ·))).length from hA0len.symm]
      rw [hspec.2.1 i 0 (by rw [hA0len]; exact hi) (by rw [hA0len]; omega)]
      have hm : Relation.ReflTransGen (MeshAdj facets normals c) i 0 :=
        (Relation.ReflTransGen.symmetric
          (fun a b hab => MeshAdj_symm hab)) (hconn i hi)
      exact hm.mono fun a b hab =>
        (sp_EdgeRel_iff_MeshAdj hwf hlen a b).mpr hab
    obtain ⟨t0, ht0, -, -⟩ := hspec.1 0 (by rw [hA0len]; exact h0)
    have ht0' : (connected_components count_points facets normals
        c).1.getD 0 none = some t0 := by
      simp only [connected_components]
      rw [show facets.length = ((adjacent_facets count_points facets).map
        (Finset.sort (· ≤ ·))).length from hA0len.symm]
      exact ht0
    refine ⟨t0, ?_⟩
    rw [List.eq_replicate_iff]
    refine ⟨hlenT, ?_⟩
    intro b hb
    rw [List.mem_iff_getElem] at hb
    obtain ⟨i, hilt, hbi⟩ := hb
    have hilt' : i < facets.length := by rw [← hlenT]; exact hilt
    have hgd : (connected_components count_points facets normals
        c).1.getD i none = b := by
      rw [List.getD_eq_getElem?_getD, List.getElem?_eq_getElem hilt]
      simp only [Option.getD_some]
      exact hbi
    rw [← hgd, hkey i hilt', ht0']

/-- `RenderMesh.separate_connected_components` as the autosmooth pipeline
runs it (rendermesh.py, lines 1039-1078), with its internal call to
`connected_components` included: compute the component tag of every facet,
then split the vertices.  The tag table is total once the partitioner has
run (`ccGo_spec`); the `Option.getD 0` below merely strips the `None`
initialization marker from the tag entries. -/
def autosmooth_once (points : List (V3 α)) (facets : List Facet)
    (uvmap : List (α × α)) (normals : List (V3 α)) (split_angle_cos : α) :
    List (V3 α) × List (α × α) × List Facet :=
  separate_connected_components points facets uvmap
    (((connected_components points.length facets normals
      split_angle_cos).1).map fun o => o.getD 0)

theorem autosmooth_once_facets_length (points : List (V3 α))
    (facets : List Facet) (uvmap : List (α × α)) (normals : List (V3 α))
    (c : α) :
    (autosmooth_once points facets uvmap normals c).2.2.length =
      facets.length := by
  have hT1len : ((((connected_components points.length facets normals
      c).1)).map fun o => o.getD 0).length = facets.length := by
    rw [List.length_map]
    simp only [connected_components]
    rw [ccGo_length_T, List.length_replicate]
  show ((facets.zip (((connected_components points.length facets normals
      c).1).map fun o => o.getD 0)).map fun ft =>
      (firstIdx (newpoints_keys facets (((connected_components points.length
        facets normals c).1).map fun o => o.getD 0)) (ft.1.1, ft.2),
       firstIdx (newpoints_keys facets (((connected_components points.length
        facets normals c).1).map fun o => o.getD 0)) (ft.1.2.1, ft.2),
       firstIdx (newpoints_keys facets (((connected_components points.length
        facets normals c).1).map fun o => o.getD 0))
        (ft.1.2.2, ft.2))).length = facets.length
  rw [List.length_map, List.length_zip, hT1len, Nat.min_self]

theorem autosmooth_once_fixed_of_single (points : List (V3 α))
    (facets : List Facet) (uvmap : List (α × α)) (normals : List (V3 α))
    (c : α) (tags : List ℕ) (t0 : ℕ)
    (hcc : (connected_components
        (separate_connected_components points facets uvmap tags).1.length
        (separate_connected_components points facets uvmap tags).2.2
        normals c).1
      = List.replicate
        (separate_connected_components points facets uvmap tags).2.2.length
        (some t0)) :
    autosmooth_once (separate_connected_components points facets uvmap
        tags).1
      (separate_connected_components points facets uvmap tags).2.2
      (separate_connected_components points facets uvmap tags).2.1 normals c
    = separate_connected_components points facets uvmap tags := by
  rw [show autosmooth_once
      (separate_connected_components points facets uvmap tags).1
      (separate_connected_components points facets uvmap tags).2.2
      (separate_connected_components points facets uvmap tags).2.1 normals c
    = separate_connected_components
      (separate_connected_components points facets uvmap tags).1
      (separate_connected_components points facets uvmap tags).2.2
      (separate_connected_components points facets uvmap tags).2.1
      (((connected_components
        (separate_connected_components points facets uvmap tags).1.length
        (separate_connected_components points facets uvmap tags).2.2
        normals c).1).map fun o => o.getD 0) from rfl]
  rw [hcc, List.map_replicate]
  exact separate_idempotent points facets uvmap tags t0

/-- C9: running the autosmooth pipeline (`connected_components`, then
`separate_connected_components`, then `compute_vnormals`) a second time on
an already-smoothed single-component mesh — a mesh produced by a first run
on which the partitioner finds a single connected component — returns the
first run's points, uv map and facets unchanged and therefore identical
vertex normals: no further splitting occurs. -/
theorem C9_autosmooth_idempotent (points : List (V3 ℝ)) (facets : List Facet)
    (uvmap : List (ℝ × ℝ)) (normals : List (V3 ℝ)) (split_angle_cos : ℝ)
    (areas : List ℝ)
    (hlen : normals.length = facets.length)
    (hconn : ∀ j, j < (autosmooth_once points facets uvmap normals
        split_angle_cos).2.2.length →
      Relation.ReflTransGen
        (MeshAdj (autosmooth_once points facets uvmap normals
          split_angle_cos).2.2 normals split_angle_cos) 0 j) :
    autosmooth_once
        (autosmooth_once points facets uvmap normals split_angle_cos).1
        (autosmooth_once points facets uvmap normals split_angle_cos).2.2
        (autosmooth_once points facets uvmap normals split_angle_cos).2.1
        normals split_angle_cos
      = autosmooth_once points facets uvmap normals split_angle_cos ∧
    compute_vnormals
        (autosmooth_once
          (autosmooth_once points facets uvmap normals split_angle_cos).1
          (autosmooth_once points facets uvmap normals split_angle_cos).2.2
          (autosmooth_once points facets uvmap normals split_angle_cos).2.1
          normals split_angle_cos).1
        (autosmooth_once
          (autosmooth_once points facets uvmap normals split_angle_cos).1
          (autosmooth_once points facets uvmap normals split_angle_cos).2.2
          (autosmooth_once points facets uvmap normals split_angle_cos).2.1
          normals split_angle_cos).2.2
        normals areas
      = compute_vnormals
          (autosmooth_once points facets uvmap normals split_angle_cos).1
          (autosmooth_once points facets uvmap normals split_angle_cos).2.2
          normals areas := by
  have hE : autosmooth_once points facets uvmap normals split_angle_cos =
      separate_connected_components points facets uvmap
        (((connected_components points.length facets normals
          split_angle_cos).1).map fun o => o.getD 0) := rfl
  have hP1len : (autosmooth_once points facets uvmap normals
      split_angle_cos).1.length =
      (newpoints_keys facets (((connected_components points.length facets
        normals split_angle_cos).1).map fun o => o.getD 0)).length := by
    rw [hE]
    show ((newpoints_keys facets (((connected_components points.length facets
      normals split_angle_cos).1).map fun o => o.getD 0)).map fun pt =>
      points.getD pt.1 zero3).length = _
    rw [List.length_map]
  have hwf2 : WfFacets (autosmooth_once points facets uvmap normals
      split_angle_cos).1.length
      (autosmooth_once points facets uvmap normals split_angle_cos).2.2 := by
    intro f hf q hq
    rw [hP1len]
    rw [hE] at hf
    exact separate_corner_lt points facets uvmap _ f hf q hq
  have hlen2 : normals.length = (autosmooth_once points facets uvmap normals
      split_angle_cos).2.2.length := by
    rw [autosmooth_once_facets_length]
    exact hlen
  obtain ⟨t0, hcc⟩ := connected_components_single
    (autosmooth_once points facets uvmap normals split_angle_cos).1.length
    (autosmooth_once points facets uvmap normals split_angle_cos).2.2
    normals split_angle_cos hwf2 hlen2 hconn
  have hfix : autosmooth_once
      (autosmooth_once points facets uvmap normals split_angle_cos).1
      (autosmooth_once points facets uvmap normals split_angle_cos).2.2
      (autosmooth_once points facets uvmap normals split_angle_cos).2.1
      normals split_angle_cos
      = autosmooth_once points facets uvmap normals split_angle_cos := by
    rw [hE] at hcc ⊢
    exact autosmooth_once_fixed_of_single points facets uvmap normals
      split_angle_cos _ t0 hcc
  exact ⟨hfix, by rw [hfix]⟩

/-- Witness for C9: a one-facet right-triangle mesh (necessarily a single
component after the first run). -/
theorem C9_witness :
    autosmooth_once
        (autosmooth_once [((0 : ℝ), 0, 0), (1, 0, 0), (0, 1, 0)] [(0, 1, 2)]
          [] [((0 : ℝ), 0, 1)] (1 / 2)).1
        (autosmooth_once [((0 : ℝ), 0, 0), (1, 0, 0), (0, 1, 0)] [(0, 1, 2)]
          [] [((0 : ℝ), 0, 1)] (1 / 2)).2.2
        (autosmooth_once [((0 : ℝ), 0, 0), (1, 0, 0), (0, 1, 0)] [(0, 1, 2)]
          [] [((0 : ℝ), 0, 1)] (1 / 2)).2.1
        [((0 : ℝ), 0, 1)] (1 / 2)
      = autosmooth_once [((0 : ℝ), 0, 0), (1, 0, 0), (0, 1, 0)] [(0, 1, 2)]
          [] [((0 : ℝ), 0, 1)] (1 / 2) :=
  (C9_autosmooth_idempotent [((0 : ℝ), 0, 0), (1, 0, 0), (0, 1, 0)]
    [(0, 1, 2)] [] [((0 : ℝ), 0, 1)] (1 / 2) [1] rfl
    (by
      intro j hj
      rw [autosmooth_once_facets_length] at hj
      have hj0 : j = 0 := by
        rw [show ([((0 : ℕ), (1 : ℕ), (2 : ℕ))] : List Facet).length = 1
          from rfl] at hj
        omega
      rw [hj0])).1

end ClaimC9

section ClaimC2

/-- Write `L` into `T` at positions `[s, s + L.length)`, the Python slice
assignment `T[s : s + len(L)] = L` (`SHARED_TAGS[start:stop] = tags`). -/
def splice {β : Type} (T : List β) (s : ℕ) (L : List β) : List β :=
  (T.take s) ++ L ++ (T.drop (s + L.length))

/-- `chunks` tiles the index interval `[s, n)` with contiguous nonempty
chunks, in order — the shape `make_chunks` produces (autosmooth.py, lines
564-580). -/
def tilesFrom : ℕ → List (ℕ × ℕ) → ℕ → Bool
  | s, [], n => s == n
  | s, c :: rest, n =>
    (c.1 == s) && decide (s < c.2) && tilesFrom c.2 rest n

/-- The per-chunk local adjacency lists of `connected_components_chunk`
(autosmooth.py, lines 364-377): for each facet of the chunk, the entries
of its 3-slot shared-table row that land inside the chunk, shifted to
local indices (`[f - start for f in ... if start <= f < stop]`). -/
def local_adjacents (A : List (List ℤ)) (start stop : ℕ) :
    List (List ℕ) :=
  (List.range (stop - start)).map fun i =>
    (A.getD (start + i) []).filterMap fun f =>
      if (start : ℤ) ≤ f ∧ f < (stop : ℤ) then some (f - start).toNat
      else none

/-- One chunk of pass 1 (`connected_components_chunk`, autosmooth.py,
lines 364-398): run the shared-counter component search on the chunk's
local adjacency, write the local tags into the global tag buffer
(`SHARED_TAGS[start:stop] = list(tags)`), and append to the shared
pass-2 buffer the cross-chunk pairs `(tag of in-chunk facet, out-of-chunk
facet index)` (`adjacents2`, a Python set — iteration order unspecified,
the embedding keeps first-listed-last de-duplicated order).  The state is
`(global tags, shared counter, pass-2 pair buffer)`; chunks are processed
in index order, one serialization of the worker pool. -/
def cc_chunk_step (A : List (List ℤ))
    (st : List (Option ℕ) × ℕ × List (ℕ × ℕ)) (c : ℕ × ℕ) :
    List (Option ℕ) × ℕ × List (ℕ × ℕ) :=
  let r := as_connected_components (local_adjacents A c.1 c.2) st.2.1
  let tagsG := splice st.1 c.1 r.1
  (tagsG, r.2,
   st.2.2 ++ ((List.range (c.2 - c.1)).flatMap fun i =>
    (A.getD (c.1 + i) []).filterMap fun f =>
      if 0 ≤ f ∧ (f < (c.1 : ℤ) ∨ (c.2 : ℤ) ≤ f) then
        some ((tagsG.getD (c.1 + i) none).getD 0, f.toNat)
      else none).dedup)

/-- Pass 1 of the two-pass parallel partitioner: fold the chunk worker
over the chunk list, starting from an untagged buffer, counter 0 and an
empty pass-2 buffer. -/
def pass1 (A : List (List ℤ)) (chunks : List (ℕ × ℕ)) :
    List (Option ℕ) × ℕ × List (ℕ × ℕ) :=
  chunks.foldl (cc_chunk_step A) (List.replicate A.length none, 0, [])

/-- The two-pass parallel connected components of `autosmooth.main`
(autosmooth.py, lines 906-952): pass 1 over the chunks; then read the
pass-2 pair buffer back, dropping `(0, 0)` entries (the zero-initialized
unwritten tail of the fixed-size buffer), replace each pair's facet index
by its pass-1 tag, drop the pairs whose two tags coincide, and group the
rest into the merge-graph adjacency `subadjacency`; run the same
component search on the merge graph (counter continuing past `maxtag`);
finally remap every facet (`tags[index] = tags_pass2[tags_pass1[index]]`). -/
def two_pass (A : List (List ℤ)) (chunks : List (ℕ × ℕ)) : List ℕ :=
  let p := pass1 A chunks
  let tags1 := p.1
  let maxtag := p.2.1
  let iter3 := ((p.2.2.filter fun q => decide (q ≠ (0, 0))).map fun q =>
    (q.1, (tags1.getD q.2 none).getD 0)).filter fun q => decide (q.1 ≠ q.2)
  let subadjacency := (List.range maxtag).map fun t =>
    (iter3.filter fun q => decide (q.1 = t)).map Prod.snd
  let tags2 := (as_connected_components subadjacency maxtag).1
  tags1.map fun o => (tags2.getD (o.getD 0) none).getD 0

/-- The single-process algorithm on the whole adjacency table: the
component search over the full index range, with the `-1` padding (and
any out-of-range entry) discarded exactly as the full-range chunk filter
discards it. -/
def single_pass (A : List (List ℤ)) : List ℕ :=
  ((as_connected_components (local_adjacents A 0 A.length) 0).1).map
    fun o => o.getD 0

/-- The edge relation stored in the shared 3-slot table: `j` is listed in
`i`'s row. -/
def EdgeT (A : List (List ℤ)) (i j : ℕ) : Prop :=
  i < A.length ∧ j < A.length ∧ (j : ℤ) ∈ A.getD i []

/-- Counterexample to C2.  A mesh of six facets: a hub facet `5 = (0,1,2)`
whose three edges carry five neighbors — facets `0, 1, 2` stacked on edge
`{0,1}`, facet `3` on edge `{0,2}`, facet `4` on edge `{1,2}` — with
identical normals and split-angle cosine `0`.  The hub has five qualifying
neighbors, so its 3-slot row keeps `[0,1,2]` and drops `3` and `4`: the
table is asymmetric (`5` is listed by `4` but not conversely).  With the
contiguous chunking `(0,4), (4,6)`, the single-process run tags facet `4`
as its own component (when the scan reaches it, the hub is already
tagged), while in the two-pass run facet `4` is scanned before the hub
inside chunk `(4,6)` and merges with it locally: the two partitions
differ on the facet pair `(4, 5)`. -/
theorem C2_counterexample :
    (two_pass (compute_adjacents 8
        [((0 : ℕ), 1, 3), (0, 1, 4), (0, 1, 5), (0, 2, 6), (1, 2, 7),
          (0, 1, 2)]
        [((0 : ℤ), 0, 1), (0, 0, 1), (0, 0, 1), (0, 0, 1), (0, 0, 1),
          (0, 0, 1)] 0 0 6) [(0, 4), (4, 6)]).getD 4 0 =
      (two_pass (compute_adjacents 8
        [((0 : ℕ), 1, 3), (0, 1, 4), (0, 1, 5), (0, 2, 6), (1, 2, 7),
          (0, 1, 2)]
        [((0 : ℤ), 0, 1), (0, 0, 1), (0, 0, 1), (0, 0, 1), (0, 0, 1),
          (0, 0, 1)] 0 0 6) [(0, 4), (4, 6)]).getD 5 0 ∧
    (single_pass (compute_adjacents 8
        [((0 : ℕ), 1, 3), (0, 1, 4), (0, 1, 5), (0, 2, 6), (1, 2, 7),
          (0, 1, 2)]
        [((0 : ℤ), 0, 1), (0, 0, 1), (0, 0, 1), (0, 0, 1), (0, 0, 1),
          (0, 0, 1)] 0 0 6)).getD 4 0 ≠
      (single_pass (compute_adjacents 8
        [((0 : ℕ), 1, 3), (0, 1, 4), (0, 1, 5), (0, 2, 6), (1, 2, 7),
          (0, 1, 2)]
        [((0 : ℤ), 0, 1), (0, 0, 1), (0, 0, 1), (0, 0, 1), (0, 0, 1),
          (0, 0, 1)] 0 0 6)).getD 5 0 := by
  have htab : compute_adjacents 8
      [((0 : ℕ), 1, 3), (0, 1, 4), (0, 1, 5), (0, 2, 6), (1, 2, 7),
        (0, 1, 2)]
      [((0 : ℤ), 0, 1), (0, 0, 1), (0, 0, 1), (0, 0, 1), (0, 0, 1),
        (0, 0, 1)] 0 0 6 =
      [[1, 2, 5], [0, 2, 5], [0, 1, 5], [5, -1, -1], [5, -1, -1],
        [0, 1, 2]] := by decide
  have h2 : two_pass [[1, 2, 5], [0, 2, 5], [0, 1, 5], [5, -1, -1],
      [5, -1, -1], [0, 1, 2]] [(0, 4), (4, 6)] = [3, 3, 3, 4, 3, 3] := by
    simp [two_pass, pass1, cc_chunk_step, splice, local_adjacents,
      as_connected_components, ccGo, connectedFacetsFrom, cfGo, popLast]
  have h1 : single_pass [[1, 2, 5], [0, 2, 5], [0, 1, 5], [5, -1, -1],
      [5, -1, -1], [0, 1, 2]] = [0, 0, 0, 1, 2, 0] := by
    simp [single_pass, local_adjacents, as_connected_components, ccGo,
      connectedFacetsFrom, cfGo, popLast]
  rw [htab, h1, h2]
  exact ⟨rfl, by decide⟩

theorem tilesFrom_nil {s n : ℕ} : tilesFrom s [] n = (s == n) := rfl

theorem tilesFrom_cons {s n : ℕ} {c : ℕ × ℕ} {rest : List (ℕ × ℕ)} :
    tilesFrom s (c :: rest) n =
      ((c.1 == s) && decide (s < c.2) && tilesFrom c.2 rest n) := rfl

theorem tilesFrom_bounds {chunks : List (ℕ × ℕ)} {b n : ℕ}
    (h : tilesFrom b chunks n = true) :
    b ≤ n ∧ ∀ c ∈ chunks, b ≤ c.1 ∧ c.1 < c.2 ∧ c.2 ≤ n := by
  induction chunks generalizing b with
  | nil =>
    rw [tilesFrom_nil, beq_iff_eq] at h
    exact ⟨le_of_eq h, by simp⟩
  | cons c rest ih =>
    rw [tilesFrom_cons] at h
    simp only [Bool.and_eq_true, beq_iff_eq, decide_eq_true_eq] at h
    obtain ⟨⟨hc1, hlt⟩, hrest⟩ := h
    obtain ⟨hbn, hmem⟩ := ih hrest
    refine ⟨by omega, ?_⟩
    intro d hd
    rcases List.mem_cons.mp hd with rfl | hd2
    · exact ⟨by omega, by omega, by omega⟩
    · obtain ⟨h1, h2, h3⟩ := hmem d hd2
      exact ⟨by omega, h2, h3⟩

theorem tilesFrom_cover {chunks : List (ℕ × ℕ)} {b n : ℕ}
    (h : tilesFrom b chunks n = true) {i : ℕ} (hbi : b ≤ i) (hin : i < n) :
    ∃ c ∈ chunks, c.1 ≤ i ∧ i < c.2 := by
  induction chunks generalizing b with
  | nil =>
    rw [tilesFrom_nil, beq_iff_eq] at h
    omega
  | cons c rest ih =>
    rw [tilesFrom_cons] at h
    simp only [Bool.and_eq_true, beq_iff_eq, decide_eq_true_eq] at h
    obtain ⟨⟨hc1, hlt⟩, hrest⟩ := h
    by_cases hcase : i < c.2
    · exact ⟨c, List.mem_cons_self c rest, by omega, hcase⟩
    · obtain ⟨d, hd, h1, h2⟩ := ih hrest (by omega)
      exact ⟨d, List.mem_cons_of_mem c hd, h1, h2⟩

theorem tilesFrom_unique {chunks : List (ℕ × ℕ)} {b n : ℕ}
    (h : tilesFrom b chunks n = true) {c c' : ℕ × ℕ} (hc : c ∈ chunks)
    (hc' : c' ∈ chunks) {i : ℕ} (h1 : c.1 ≤ i) (h2 : i < c.2)
    (h3 : c'.1 ≤ i) (h4 : i < c'.2) : c = c' := by
  induction chunks generalizing b with
  | nil => simp at hc
  | cons a rest ih =>
    rw [tilesFrom_cons] at h
    simp only [Bool.and_eq_true, beq_iff_eq, decide_eq_true_eq] at h
    obtain ⟨⟨ha1, hlt⟩, hrest⟩ := h
    have hbnd := (tilesFrom_bounds hrest).2
    rcases List.mem_cons.mp hc with rfl | hcr <;>
      rcases List.mem_cons.mp hc' with rfl | hcr'
    · rfl
    · obtain ⟨hb1, -, -⟩ := hbnd c' hcr'
      omega
    · obtain ⟨hb1, -, -⟩ := hbnd c hcr
      omega
    · exact ih hrest hcr hcr'

theorem splice_length {β : Type} {T : List β} {s : ℕ} {L : List β}
    (hs : s + L.length ≤ T.length) :
    (splice T s L).length = T.length := by
  unfold splice
  simp only [List.length_append, List.length_take, List.length_drop]
  omega

theorem splice_getD_lt {β : Type} {T : List β} {s : ℕ} {L : List β}
    {i : ℕ} {d : β} (hi : i < s) (hs : s ≤ T.length) :
    (splice T s L).getD i d = T.getD i d := by
  unfold splice
  have hlen : (T.take s).length = s := by
    rw [List.length_take]
    omega
  rw [List.getD_eq_getElem?_getD, List.getD_eq_getElem?_getD,
    List.append_assoc, List.getElem?_append, if_pos (by rw [hlen]; exact hi),
    List.getElem?_take]
  simp [hi]

theorem splice_getD_mid {β : Type} {T : List β} {s : ℕ} {L : List β}
    {i : ℕ} {d : β} (h1 : s ≤ i) (h2 : i < s + L.length)
    (hs : s ≤ T.length) :
    (splice T s L).getD i d = L.getD (i - s) d := by
  unfold splice
  have hlen : (T.take s).length = s := by
    rw [List.length_take]
    omega
  rw [List.getD_eq_getElem?_getD, List.getD_eq_getElem?_getD,
    List.append_assoc, List.getElem?_append_right (by rw [hlen]; exact h1),
    hlen, List.getElem?_append, if_pos (by omega)]

theorem splice_getD_ge {β : Type} {T : List β} {s : ℕ} {L : List β}
    {i : ℕ} {d : β} (h1 : s + L.length ≤ i) (hs : s ≤ T.length) :
    (splice T s L).getD i d = T.getD i d := by
  unfold splice
  have hlen : (T.take s).length = s := by
    rw [List.length_take]
    omega
  rw [List.getD_eq_getElem?_getD, List.getD_eq_getElem?_getD,
    List.append_assoc, List.getElem?_append_right (by rw [hlen]; omega),
    hlen, List.getElem?_append_right (by omega), List.getElem?_drop]
  rw [show s + L.length + (i - s - L.length) = i from by omega]

theorem length_local_adjacents {A : List (List ℤ)} {s e : ℕ} :
    (local_adjacents A s e).length = e - s := by
  simp [local_adjacents]

theorem mem_local_adjacents {A : List (List ℤ)} {s e li lj : ℕ}
    (hli : li < e - s) :
    lj ∈ (local_adjacents A s e).getD li [] ↔
      lj < e - s ∧ ((s + lj : ℕ) : ℤ) ∈ A.getD (s + li) [] := by
  unfold local_adjacents
  rw [List.getD_eq_getElem?_getD, List.getElem?_map,
    List.getElem?_range hli]
  simp only [Option.map_some', Option.getD_some]
  rw [List.mem_filterMap]
  constructor
  · rintro ⟨f, hf, hif⟩
    by_cases hcond : (s : ℤ) ≤ f ∧ f < (e : ℤ)
    · rw [if_pos hcond] at hif
      have hinj := Option.some.inj hif
      have hfe : f = ((s + lj : ℕ) : ℤ) := by
        push_cast
        omega
      exact ⟨by omega, by rw [← hfe]; exact hf⟩
    · rw [if_neg hcond] at hif
      exact absurd hif (by simp)
  · rintro ⟨hlt, hmem⟩
    refine ⟨((s + lj : ℕ) : ℤ), hmem, ?_⟩
    rw [if_pos (by push_cast; omega)]
    have heq : (((s + lj : ℕ) : ℤ) - (s : ℤ)).toNat = lj := by
      push_cast
      omega
    rw [show ((s + lj : ℕ) : ℤ) - (s : ℤ)
      = ((s + lj : ℕ) : ℤ) - ((s : ℕ) : ℤ) from rfl, heq]

/-- Table edge with both endpoints in `[s, e)`: the edges a chunk's local
search can use. -/
def EdgeIn (A : List (List ℤ)) (s e i j : ℕ) : Prop :=
  s ≤ i ∧ i < e ∧ s ≤ j ∧ j < e ∧ EdgeT A i j

/-- Table edge internal to one of the chunks. -/
def EdgeIntra (A : List (List ℤ)) (chunks : List (ℕ × ℕ)) (i j : ℕ) :
    Prop :=
  ∃ c ∈ chunks, EdgeIn A c.1 c.2 i j

theorem EdgeRel_local_iff {A : List (List ℤ)} {s e li lj : ℕ}
    (he : e ≤ A.length) :
    EdgeRel (fun _ _ => true) (local_adjacents A s e) li lj ↔
      EdgeIn A s e (s + li) (s + lj) := by
  unfold EdgeRel EdgeIn EdgeT
  rw [length_local_adjacents]
  constructor
  · rintro ⟨h1, h2, h3, -⟩
    rw [mem_local_adjacents h1] at h3
    exact ⟨by omega, by omega, by omega, by omega, by omega, by omega, h3.2⟩
  · rintro ⟨h1, h2, h3, h4, h5, h6, h7⟩
    refine ⟨by omega, by omega, ?_, rfl⟩
    rw [mem_local_adjacents (by omega)]
    exact ⟨by omega, h7⟩

theorem rtg_local_iff {A : List (List ℤ)} {s e : ℕ} (he : e ≤ A.length)
    {li lj : ℕ} :
    Relation.ReflTransGen
        (EdgeRel (fun _ _ => true) (local_adjacents A s e)) li lj ↔
      Relation.ReflTransGen (EdgeIn A s e) (s + li) (s + lj) := by
  constructor
  · intro h
    induction h with
    | refl => exact Relation.ReflTransGen.refl
    | tail hik hE ih => exact ih.tail ((EdgeRel_local_iff he).mp hE)
  · intro h
    have key : ∀ x y, Relation.ReflTransGen (EdgeIn A s e) x y →
        ∀ lx, x = s + lx → ∃ ly, y = s + ly ∧
          Relation.ReflTransGen (EdgeRel (fun _ _ => true)
            (local_adjacents A s e)) lx ly := by
      intro x y hxy
      induction hxy with
      | refl =>
        intro lx hx
        exact ⟨lx, hx, Relation.ReflTransGen.refl⟩
      | tail hik hE ih =>
        intro lx hx
        rename_i k m
        obtain ⟨ly, hy, hrtg⟩ := ih lx hx
        obtain ⟨hm1, hm2, hm3, hm4, hT⟩ := hE
        refine ⟨m - s, by omega, hrtg.tail ?_⟩
        rw [EdgeRel_local_iff he, show s + (m - s) = m from by omega, ← hy]
        exact ⟨hm1, hm2, hm3, hm4, hT⟩
    obtain ⟨ly, hy, hrtg⟩ := key _ _ h li rfl
    have hl : ly = lj := by omega
    exact hl ▸ hrtg

theorem rtg_edgein_bound {A : List (List ℤ)} {s e i k : ℕ}
    (h : Relation.ReflTransGen (EdgeIn A s e) i k) :
    k = i ∨ (s ≤ k ∧ k < e) := by
  induction h with
  | refl => exact Or.inl rfl
  | tail hik hE ih => exact Or.inr ⟨hE.2.2.1, hE.2.2.2.1⟩

theorem rtg_intra_in_chunk {A : List (List ℤ)} {chunks : List (ℕ × ℕ)}
    {b n : ℕ} (ht : tilesFrom b chunks n = true) {c : ℕ × ℕ}
    (hc : c ∈ chunks) {i j : ℕ} (hi1 : c.1 ≤ i) (hi2 : i < c.2) :
    Relation.ReflTransGen (EdgeIntra A chunks) i j ↔
      Relation.ReflTransGen (EdgeIn A c.1 c.2) i j := by
  constructor
  · intro h
    induction h with
    | refl => exact Relation.ReflTransGen.refl
    | tail hik hE ih =>
      rename_i k m
      obtain ⟨c', hc', hE'⟩ := hE
      have hkc : c'.1 ≤ k ∧ k < c'.2 := ⟨hE'.1, hE'.2.1⟩
      have hkin : c.1 ≤ k ∧ k < c.2 := by
        rcases rtg_edgein_bound ih with heq | hb
        · rw [heq]
          exact ⟨hi1, hi2⟩
        · exact hb
      have hcc : c' = c := tilesFrom_unique ht hc' hc hkc.1 hkc.2
        hkin.1 hkin.2
      rw [hcc] at hE'
      exact ih.tail hE'
  · intro h
    exact h.mono fun a b hab => ⟨c, hc, hab⟩

theorem EdgeIn_symm {A : List (List ℤ)} {s e i j : ℕ}
    (hsym : ∀ i j, EdgeT A i j → EdgeT A j i) (h : EdgeIn A s e i j) :
    EdgeIn A s e j i :=
  ⟨h.2.2.1, h.2.2.2.1, h.1, h.2.1, hsym i j h.2.2.2.2⟩

theorem as_cc_fst (adj : List (List ℕ)) (ctr : ℕ) :
    (as_connected_components adj ctr).1 =
      (ccGo (fun _ _ => true) adj (List.replicate adj.length none)
        ctr 0).2.1 := rfl

theorem as_cc_snd (adj : List (List ℕ)) (ctr : ℕ) :
    (as_connected_components adj ctr).2 =
      (ccGo (fun _ _ => true) adj (List.replicate adj.length none)
        ctr 0).2.2 := rfl

/-- Invariant of the pass-1 fold after the chunks tiling `[0, B)` have
been processed. -/
structure P1Inv (A : List (List ℤ)) (chunks : List (ℕ × ℕ)) (B : ℕ)
    (st : List (Option ℕ) × ℕ × List (ℕ × ℕ)) : Prop where
  lenT : st.1.length = A.length
  upper : ∀ i, B ≤ i → st.1.getD i none = none
  total : ∀ i, i < B → ∃ t, st.1.getD i none = some t ∧ t < st.2.1
  classes : ∀ i j, i < B → j < B →
    (st.1.getD i none = st.1.getD j none ↔
      Relation.ReflTransGen (EdgeIntra A chunks) i j)
  pairs_mem : ∀ t f, (t, f) ∈ st.2.2 ↔ ∃ i c, i < B ∧ c ∈ chunks ∧
    c.1 ≤ i ∧ i < c.2 ∧ st.1.getD i none = some t ∧
    ((f : ℤ) ∈ A.getD i []) ∧ (f < c.1 ∨ c.2 ≤ f)
  ctr_pos : 0 < B → 0 < st.2.1
  zero_tag : ∀ i, i < B → st.1.getD i none = some 0 →
    ∃ c ∈ chunks, c.1 = 0 ∧ c.1 ≤ i ∧ i < c.2

/-- In a tiling, the chunk of an index left of a chunk boundary `B` ends
at or before `B`. -/
theorem chunk_left_of_boundary {A_len : ℕ} {chunks : List (ℕ × ℕ)}
    (htAll : tilesFrom 0 chunks A_len = true) {c c' : ℕ × ℕ}
    (hc : c ∈ chunks) (hc' : c' ∈ chunks) {i : ℕ} (h1 : c'.1 ≤ i)
    (h2 : i < c'.2) (hiB : i < c.1) (hB : c.1 < c.2) : c'.2 ≤ c.1 := by
  by_contra hgt
  have hBin : c'.1 ≤ c.1 ∧ c.1 < c'.2 := ⟨by omega, by omega⟩
  have heq := tilesFrom_unique htAll hc' hc hBin.1 hBin.2 (le_refl c.1) hB
  have h1' : c'.1 = c.1 := by rw [heq]
  omega

theorem cc_chunk_step_inv {A : List (List ℤ)} {chunks : List (ℕ × ℕ)}
    (hsym : ∀ i j, EdgeT A i j → EdgeT A j i)
    (htAll : tilesFrom 0 chunks A.length = true)
    {c : ℕ × ℕ} (hc : c ∈ chunks) {B : ℕ} (hc1 : c.1 = B) (hc2 : B < c.2)
    {st : List (Option ℕ) × ℕ × List (ℕ × ℕ)}
    (hinv : P1Inv A chunks B st) :
    P1Inv A chunks c.2 (cc_chunk_step A st c) := by
  obtain ⟨cbound, hmemb⟩ := tilesFrom_bounds htAll
  obtain ⟨-, hcc, hce⟩ := hmemb c hc
  have hsn : c.1 ≤ A.length := by omega
  have HsymL : ∀ a b, EdgeRel (fun _ _ => true)
      (local_adjacents A c.1 c.2) a b →
      EdgeRel (fun _ _ => true) (local_adjacents A c.1 c.2) b a := by
    intro a b hab
    rw [EdgeRel_local_iff hce] at hab ⊢
    exact EdgeIn_symm hsym hab
  have hspec := ccGo_spec (fun _ _ => true) (local_adjacents A c.1 c.2)
    st.2.1 HsymL
  have hLlen : ((as_connected_components (local_adjacents A c.1 c.2)
      st.2.1).1).length = c.2 - c.1 := by
    rw [as_cc_fst, ccGo_length_T, List.length_replicate,
      length_local_adjacents]
  have hst1 : (cc_chunk_step A st c).1 =
      splice st.1 c.1 ((as_connected_components
        (local_adjacents A c.1 c.2) st.2.1).1) := rfl
  have hst2 : (cc_chunk_step A st c).2.1 =
      (as_connected_components (local_adjacents A c.1 c.2) st.2.1).2 := rfl
  have hst3 : (cc_chunk_step A st c).2.2 =
      st.2.2 ++ ((List.range (c.2 - c.1)).flatMap fun i =>
        (A.getD (c.1 + i) []).filterMap fun f =>
          if 0 ≤ f ∧ (f < (c.1 : ℤ) ∨ (c.2 : ℤ) ≤ f) then
            some (((splice st.1 c.1 ((as_connected_components
              (local_adjacents A c.1 c.2) st.2.1).1)).getD (c.1 + i)
                none).getD 0, f.toNat)
          else none).dedup := rfl
  have hsplice_len : c.1 + ((as_connected_components
      (local_adjacents A c.1 c.2) st.2.1).1).length ≤ st.1.length := by
    rw [hLlen, hinv.lenT]
    omega
  -- getD of the new tag table in the three regions
  have hg_lt : ∀ i, i < B → (cc_chunk_step A st c).1.getD i none =
      st.1.getD i none := by
    intro i hi
    rw [hst1]
    exact splice_getD_lt (by omega) (by rw [hinv.lenT]; omega)
  have hg_mid : ∀ i, B ≤ i → i < c.2 →
      (cc_chunk_step A st c).1.getD i none =
      ((as_connected_components (local_adjacents A c.1 c.2)
        st.2.1).1).getD (i - c.1) none := by
    intro i hi1 hi2
    rw [hst1]
    exact splice_getD_mid (by omega) (by rw [hLlen]; omega)
      (by rw [hinv.lenT]; omega)
  have hg_ge : ∀ i, c.2 ≤ i → (cc_chunk_step A st c).1.getD i none =
      st.1.getD i none := by
    intro i hi
    rw [hst1]
    exact splice_getD_ge (by rw [hLlen]; omega) (by rw [hinv.lenT]; omega)
  -- local totality in terms of the new table
  have htotal_mid : ∀ i, B ≤ i → i < c.2 →
      ∃ t, (cc_chunk_step A st c).1.getD i none = some t ∧
        st.2.1 ≤ t ∧ t < (cc_chunk_step A st c).2.1 := by
    intro i hi1 hi2
    obtain ⟨t, ht, h1, h2⟩ := hspec.1 (i - c.1)
      (by rw [length_local_adjacents]; omega)
    refine ⟨t, ?_, h1, ?_⟩
    · rw [hg_mid i hi1 hi2, as_cc_fst]
      exact ht
    · rw [hst2, as_cc_snd]
      exact h2
  have hctr_mono : st.2.1 ≤ (cc_chunk_step A st c).2.1 := by
    rw [hst2, as_cc_snd]
    exact hspec.2.2
  refine ⟨?_, ?_, ?_, ?_, ?_, ?_, ?_⟩
  · rw [hst1]
    rw [splice_length hsplice_len]
    exact hinv.lenT
  · intro i hi
    rw [hg_ge i hi]
    exact hinv.upper i (by omega)
  · intro i hi
    by_cases hiB : i < B
    · obtain ⟨t, ht, htlt⟩ := hinv.total i hiB
      exact ⟨t, by rw [hg_lt i hiB]; exact ht, by omega⟩
    · obtain ⟨t, ht, -, h2⟩ := htotal_mid i (by omega) hi
      exact ⟨t, ht, h2⟩
  · intro i j hi hj
    by_cases hiB : i < B <;> by_cases hjB : j < B
    · rw [hg_lt i hiB, hg_lt j hjB]
      exact hinv.classes i j hiB hjB
    · -- i old, j new: tags differ and no intra path
      obtain ⟨t, ht, htlt⟩ := hinv.total i hiB
      obtain ⟨u, hu, hu1, -⟩ := htotal_mid j (by omega) hj
      rw [hg_lt i hiB, ht, hu]
      constructor
      · intro heq
        exact absurd (Option.some.inj heq) (by omega)
      · intro hpath
        exfalso
        obtain ⟨c', hc', h1, h2⟩ := tilesFrom_cover htAll
          (Nat.zero_le i) (by omega)
        rw [rtg_intra_in_chunk htAll hc' h1 h2] at hpath
        have hc'2 : c'.2 ≤ B := by
          have := chunk_left_of_boundary htAll hc hc' h1 h2
            (by omega) (by omega)
          omega
        rcases rtg_edgein_bound hpath with heq | hb
        · omega
        · omega
    · -- i new, j old: symmetric
      obtain ⟨t, ht, htlt⟩ := hinv.total j hjB
      obtain ⟨u, hu, hu1, -⟩ := htotal_mid i (by omega) hi
      rw [hg_lt j hjB, ht, hu]
      constructor
      · intro heq
        exact absurd (Option.some.inj heq) (by omega)
      · intro hpath
        exfalso
        obtain ⟨c', hc', h1, h2⟩ := tilesFrom_cover htAll
          (Nat.zero_le j) (by omega)
        rw [show Relation.ReflTransGen (EdgeIntra A chunks) i j ↔
          Relation.ReflTransGen (EdgeIntra A chunks) j i from
          ⟨fun hh => hh.symmetric (fun a b hab =>
            ⟨hab.choose, hab.choose_spec.1,
              EdgeIn_symm hsym hab.choose_spec.2⟩),
           fun hh => hh.symmetric (fun a b hab =>
            ⟨hab.choose, hab.choose_spec.1,
              EdgeIn_symm hsym hab.choose_spec.2⟩)⟩] at hpath
        rw [rtg_intra_in_chunk htAll hc' h1 h2] at hpath
        have hc'2 : c'.2 ≤ B := by
          have := chunk_left_of_boundary htAll hc hc' h1 h2
            (by omega) (by omega)
          omega
        rcases rtg_edgein_bound hpath with heq | hb
        · omega
        · omega
    · -- both new
      rw [hg_mid i (by omega) hi, hg_mid j (by omega) hj, as_cc_fst]
      rw [hspec.2.1 (i - c.1) (j - c.1)
        (by rw [length_local_adjacents]; omega)
        (by rw [length_local_adjacents]; omega)]
      rw [rtg_local_iff hce]
      rw [show c.1 + (i - c.1) = i from by omega,
        show c.1 + (j - c.1) = j from by omega]
      exact (rtg_intra_in_chunk htAll hc (by omega) hi).symm
  · -- pairs
    intro t f
    rw [hst3, List.mem_append, List.mem_dedup, List.mem_flatMap]
    constructor
    · rintro (hold | hnew)
      · obtain ⟨i, c', hiB, hc', h1, h2, h3, h4, h5⟩ :=
          (hinv.pairs_mem t f).mp hold
        exact ⟨i, c', by omega, hc', h1, h2,
          by rw [hg_lt i hiB]; exact h3, h4, h5⟩
      · obtain ⟨li, hli, hmem⟩ := hnew
        rw [List.mem_range] at hli
        rw [List.mem_filterMap] at hmem
        obtain ⟨fz, hfz, hif⟩ := hmem
        by_cases hcond : 0 ≤ fz ∧ (fz < (c.1 : ℤ) ∨ (c.2 : ℤ) ≤ fz)
        · rw [if_pos hcond] at hif
          have hpe := Option.some.inj hif
          have ht' : t = ((splice st.1 c.1 ((as_connected_components
              (local_adjacents A c.1 c.2) st.2.1).1)).getD (c.1 + li)
                none).getD 0 := (congrArg Prod.fst hpe).symm
          have hf' : f = fz.toNat := (congrArg Prod.snd hpe).symm
          obtain ⟨u, hu, -, -⟩ := htotal_mid (c.1 + li) (by omega)
            (by omega)
          rw [hst1] at hu
          refine ⟨c.1 + li, c, by omega, hc, by omega, by omega, ?_, ?_, ?_⟩
          · rw [hst1, hu]
            rw [hu] at ht'
            simp only [Option.getD_some] at ht'
            rw [ht']
          · rw [hf', show ((fz.toNat : ℕ) : ℤ) = fz from by omega]
            exact hfz
          · omega
        · rw [if_neg hcond] at hif
          exact absurd hif (by simp)
    · rintro ⟨i, c', hie, hc', h1, h2, h3, h4, h5⟩
      by_cases hiB : i < B
      · left
        rw [hg_lt i hiB] at h3
        exact (hinv.pairs_mem t f).mpr ⟨i, c', hiB, hc', h1, h2, h3, h4, h5⟩
      · right
        -- i in the current chunk: c' = c by uniqueness
        have hic : c.1 ≤ i ∧ i < c.2 := ⟨by omega, hie⟩
        refine ⟨i - c.1, ?_, ?_⟩
        · rw [List.mem_range]
          omega
        · rw [List.mem_filterMap]
          refine ⟨(f : ℤ), ?_, ?_⟩
          · rw [show c.1 + (i - c.1) = i from by omega]
            exact h4
          · rw [if_pos ?_]
            · rw [show c.1 + (i - c.1) = i from by omega, ← hst1, h3]
              simp only [Option.getD_some, Int.toNat_natCast]
            · have hcc' : c' = c := tilesFrom_unique htAll hc' hc h1 h2
                hic.1 hic.2
              rw [hcc'] at h5
              omega
  · intro hpos
    by_cases hB0 : 0 < B
    · have := hinv.ctr_pos hB0
      omega
    · obtain ⟨t, -, h1, h2⟩ := htotal_mid B (le_refl B) hc2
      omega
  · intro i hi hzero
    by_cases hiB : i < B
    · rw [hg_lt i hiB] at hzero
      exact hinv.zero_tag i hiB hzero
    · obtain ⟨t, ht, h1, -⟩ := htotal_mid i (by omega) hi
      rw [ht] at hzero
      have ht0 : t = 0 := Option.some.inj hzero
      have hctr0 : st.2.1 = 0 := by omega
      have hB0 : B = 0 := by
        by_contra hB
        have := hinv.ctr_pos (by omega)
        omega
      exact ⟨c, hc, by omega, by omega, hi⟩

theorem P1Inv_init {A : List (List ℤ)} {chunks : List (ℕ × ℕ)} :
    P1Inv A chunks 0 (List.replicate A.length none, 0, []) := by
  refine ⟨?_, ?_, ?_, ?_, ?_, ?_, ?_⟩
  · exact List.length_replicate _ _
  · intro i _
    exact getD_replicate_none
  · intro i hi
    exact absurd hi (Nat.not_lt_zero i)
  · intro i j hi _
    exact absurd hi (Nat.not_lt_zero i)
  · intro t f
    constructor
    · intro h
      exact absurd h (List.not_mem_nil _)
    · rintro ⟨i, c, hi, -⟩
      exact absurd hi (Nat.not_lt_zero i)
  · intro h
    exact absurd h (lt_irrefl 0)
  · intro i hi
    exact absurd hi (Nat.not_lt_zero i)

theorem pass1_fold_inv {A : List (List ℤ)} {chunks : List (ℕ × ℕ)}
    (hsym : ∀ i j, EdgeT A i j → EdgeT A j i)
    (htAll : tilesFrom 0 chunks A.length = true) :
    ∀ (todo : List (ℕ × ℕ)) (B : ℕ)
      (st : List (Option ℕ) × ℕ × List (ℕ × ℕ)),
      tilesFrom B todo A.length = true →
      (∀ c ∈ todo, c ∈ chunks) →
      P1Inv A chunks B st →
      P1Inv A chunks A.length (todo.foldl (cc_chunk_step A) st) := by
  intro todo
  induction todo with
  | nil =>
    intro B st ht hsub hinv
    rw [tilesFrom_nil, beq_iff_eq] at ht
    rw [List.foldl_nil, ← ht]
    exact hinv
  | cons c rest ih =>
    intro B st ht hsub hinv
    rw [tilesFrom_cons] at ht
    simp only [Bool.and_eq_true, beq_iff_eq, decide_eq_true_eq] at ht
    obtain ⟨⟨hc1, hlt⟩, hrest⟩ := ht
    rw [List.foldl_cons]
    exact ih c.2 _ hrest (fun d hd => hsub d (List.mem_cons_of_mem c hd))
      (cc_chunk_step_inv hsym htAll (hsub c (List.mem_cons_self c rest))
        hc1 hlt hinv)

theorem pass1_inv {A : List (List ℤ)} {chunks : List (ℕ × ℕ)}
    (hsym : ∀ i j, EdgeT A i j → EdgeT A j i)
    (htAll : tilesFrom 0 chunks A.length = true) :
    P1Inv A chunks A.length (pass1 A chunks) :=
  pass1_fold_inv hsym htAll chunks 0 _ htAll (fun _ hc => hc) P1Inv_init

/-- The pass-1 tag of a facet, as the final remap reads it. -/
def tagOf (A : List (List ℤ)) (chunks : List (ℕ × ℕ)) (i : ℕ) : ℕ :=
  ((pass1 A chunks).1.getD i none).getD 0

/-- The merge-graph edge: two distinct pass-1 components with a recorded
cross-chunk table edge between them. -/
def EdgeM (A : List (List ℤ)) (chunks : List (ℕ × ℕ)) (t u : ℕ) : Prop :=
  t ≠ u ∧ ∃ i f c, c ∈ chunks ∧ c.1 ≤ i ∧ i < c.2 ∧
    (f < c.1 ∨ c.2 ≤ f) ∧ EdgeT A i f ∧
    tagOf A chunks i = t ∧ tagOf A chunks f = u

/-- The `(tag, tag)` pair iterator the main process feeds the merge
graph with. -/
def mergeIter (A : List (List ℤ)) (chunks : List (ℕ × ℕ)) :
    List (ℕ × ℕ) :=
  (((pass1 A chunks).2.2.filter fun q => decide (q ≠ (0, 0))).map fun q =>
    (q.1, ((pass1 A chunks).1.getD q.2 none).getD 0)).filter fun q =>
    decide (q.1 ≠ q.2)

/-- The merge-graph adjacency rows (`subadjacency`). -/
def mergeRows (A : List (List ℤ)) (chunks : List (ℕ × ℕ)) :
    List (List ℕ) :=
  (List.range (pass1 A chunks).2.1).map fun t =>
    ((mergeIter A chunks).filter fun q => decide (q.1 = t)).map Prod.snd

theorem two_pass_eq (A : List (List ℤ)) (chunks : List (ℕ × ℕ)) :
    two_pass A chunks =
      (pass1 A chunks).1.map fun o =>
        (((as_connected_components (mergeRows A chunks)
          (pass1 A chunks).2.1).1).getD (o.getD 0) none).getD 0 := rfl

theorem mergeRows_length {A : List (List ℤ)} {chunks : List (ℕ × ℕ)} :
    (mergeRows A chunks).length = (pass1 A chunks).2.1 := by
  simp [mergeRows]

theorem getD_map_general {l : List (Option ℕ)} {i : ℕ}
    (h : i < l.length) (g : Option ℕ → ℕ) :
    (l.map g).getD i 0 = g (l.getD i none) := by
  rw [List.getD_eq_getElem?_getD, List.getElem?_map,
    List.getElem?_eq_getElem h, List.getD_eq_getElem?_getD,
    List.getElem?_eq_getElem h]
  rfl

theorem tag_some {A : List (List ℤ)} {chunks : List (ℕ × ℕ)}
    (hsym : ∀ i j, EdgeT A i j → EdgeT A j i)
    (htAll : tilesFrom 0 chunks A.length = true) {i : ℕ}
    (hi : i < A.length) :
    (pass1 A chunks).1.getD i none = some (tagOf A chunks i) := by
  obtain ⟨t, ht, -⟩ := (pass1_inv hsym htAll).total i hi
  rw [tagOf, ht]
  rfl

theorem tagOf_lt {A : List (List ℤ)} {chunks : List (ℕ × ℕ)}
    (hsym : ∀ i j, EdgeT A i j → EdgeT A j i)
    (htAll : tilesFrom 0 chunks A.length = true) {i : ℕ}
    (hi : i < A.length) :
    tagOf A chunks i < (pass1 A chunks).2.1 := by
  obtain ⟨t, ht, hlt⟩ := (pass1_inv hsym htAll).total i hi
  rw [tagOf, ht]
  exact hlt

theorem tagOf_eq_iff {A : List (List ℤ)} {chunks : List (ℕ × ℕ)}
    (hsym : ∀ i j, EdgeT A i j → EdgeT A j i)
    (htAll : tilesFrom 0 chunks A.length = true) {i j : ℕ}
    (hi : i < A.length) (hj : j < A.length) :
    tagOf A chunks i = tagOf A chunks j ↔
      Relation.ReflTransGen (EdgeIntra A chunks) i j := by
  rw [← (pass1_inv hsym htAll).classes i j hi hj, tag_some hsym htAll hi,
    tag_some hsym htAll hj]
  simp

theorem pairs_ne_zero {A : List (List ℤ)} {chunks : List (ℕ × ℕ)}
    (hsym : ∀ i j, EdgeT A i j → EdgeT A j i)
    (htAll : tilesFrom 0 chunks A.length = true) :
    ∀ q ∈ (pass1 A chunks).2.2, q ≠ (0, 0) := by
  rintro ⟨t, f⟩ hq he
  have ht0 : t = 0 := congrArg Prod.fst he
  have hf0 : f = 0 := congrArg Prod.snd he
  obtain ⟨i, c', hi, hc', h1, h2, h3, h4, h5⟩ :=
    ((pass1_inv hsym htAll).pairs_mem t f).mp hq
  obtain ⟨c0, hc0, hc01, hc02, hc03⟩ := (pass1_inv hsym htAll).zero_tag i hi
    (by rw [h3, ht0])
  have hcc : c' = c0 := tilesFrom_unique htAll hc' hc0 h1 h2 hc02 hc03
  obtain ⟨-, hb⟩ := tilesFrom_bounds htAll
  obtain ⟨-, hlt, -⟩ := hb c' hc'
  have h0 : c'.1 = 0 := by rw [hcc]; exact hc01
  omega

theorem mergeIter_mem {A : List (List ℤ)} {chunks : List (ℕ × ℕ)}
    (hsym : ∀ i j, EdgeT A i j → EdgeT A j i)
    (htAll : tilesFrom 0 chunks A.length = true) {t u : ℕ} :
    (t, u) ∈ mergeIter A chunks ↔
      t ≠ u ∧ ∃ f, (t, f) ∈ (pass1 A chunks).2.2 ∧
        u = ((pass1 A chunks).1.getD f none).getD 0 := by
  unfold mergeIter
  have hfeq : (pass1 A chunks).2.2.filter (fun q => decide (q ≠ (0, 0))) =
      (pass1 A chunks).2.2 :=
    List.filter_eq_self.mpr fun q hq =>
      decide_eq_true (pairs_ne_zero hsym htAll q hq)
  rw [hfeq, List.mem_filter, decide_eq_true_eq, List.mem_map]
  constructor
  · rintro ⟨⟨q, hq, hqe⟩, hne⟩
    refine ⟨hne, q.2, ?_, (congrArg Prod.snd hqe).symm⟩
    have h1 : q.1 = t := congrArg Prod.fst hqe
    rw [← h1]
    exact hq
  · rintro ⟨hne, f, hf, hu⟩
    refine ⟨⟨(t, f), hf, ?_⟩, hne⟩
    rw [hu]

theorem mergeRows_row {A : List (List ℤ)} {chunks : List (ℕ × ℕ)}
    {t u : ℕ} (ht : t < (pass1 A chunks).2.1) :
    u ∈ (mergeRows A chunks).getD t [] ↔ (t, u) ∈ mergeIter A chunks := by
  unfold mergeRows
  rw [List.getD_eq_getElem?_getD, List.getElem?_map,
    List.getElem?_range ht]
  simp only [Option.map_some', Option.getD_some]
  rw [List.mem_map]
  constructor
  · rintro ⟨q, hq, hqe⟩
    rw [List.mem_filter, decide_eq_true_eq] at hq
    have hqtu : q = (t, u) := Prod.ext hq.2 hqe
    rw [← hqtu]
    exact hq.1
  · intro h
    exact ⟨(t, u), List.mem_filter.mpr ⟨h, by simp⟩, rfl⟩

theorem EdgeRel_merge_iff {A : List (List ℤ)} {chunks : List (ℕ × ℕ)}
    (hsym : ∀ i j, EdgeT A i j → EdgeT A j i)
    (hAw : ∀ i, i < A.length → ∀ f ∈ A.getD i [],
      f = -1 ∨ (0 ≤ f ∧ f < (A.length : ℤ)))
    (htAll : tilesFrom 0 chunks A.length = true) {t u : ℕ} :
    EdgeRel (fun _ _ => true) (mergeRows A chunks) t u ↔
      EdgeM A chunks t u := by
  unfold EdgeRel
  rw [mergeRows_length]
  constructor
  · rintro ⟨ht, hu, hmem, -⟩
    rw [mergeRows_row ht, mergeIter_mem hsym htAll] at hmem
    obtain ⟨hne, f, hpair, hu'⟩ := hmem
    obtain ⟨i, c', hi, hc', h1, h2, h3, h4, h5⟩ :=
      ((pass1_inv hsym htAll).pairs_mem t f).mp hpair
    have hfn : f < A.length := by
      rcases hAw i hi _ h4 with hneg | hpos
      · omega
      · omega
    refine ⟨hne, i, f, c', hc', h1, h2, h5, ⟨hi, hfn, h4⟩, ?_, ?_⟩
    · rw [tagOf, h3]
      rfl
    · rw [tagOf, ← hu']
  · rintro ⟨hne, i, f, c', hc', h1, h2, h5, hT, hti, htf⟩
    have hi : i < A.length := hT.1
    have hf : f < A.length := hT.2.1
    refine ⟨?_, ?_, ?_, rfl⟩
    · rw [← hti]
      exact tagOf_lt hsym htAll hi
    · rw [← htf]
      exact tagOf_lt hsym htAll hf
    · rw [mergeRows_row (by rw [← hti]; exact tagOf_lt hsym htAll hi),
        mergeIter_mem hsym htAll]
      refine ⟨hne, f, ?_, ?_⟩
      · exact ((pass1_inv hsym htAll).pairs_mem t f).mpr
          ⟨i, c', hi, hc', h1, h2,
            by rw [← hti]; exact tag_some hsym htAll hi, hT.2.2, h5⟩
      · rw [← htf, tagOf]

theorem EdgeM_symm {A : List (List ℤ)} {chunks : List (ℕ × ℕ)}
    (hsym : ∀ i j, EdgeT A i j → EdgeT A j i)
    (htAll : tilesFrom 0 chunks A.length = true) {t u : ℕ}
    (h : EdgeM A chunks t u) : EdgeM A chunks u t := by
  obtain ⟨hne, i, f, c', hc', h1, h2, h5, hT, hti, htf⟩ := h
  have hf : f < A.length := hT.2.1
  obtain ⟨c'', hc'', h1', h2'⟩ := tilesFrom_cover htAll (Nat.zero_le f) hf
  refine ⟨hne.symm, f, i, c'', hc'', h1', h2', ?_, hsym i f hT, htf, hti⟩
  by_contra hin
  have hin2 : c''.1 ≤ i ∧ i < c''.2 := by omega
  have hcc : c' = c'' := tilesFrom_unique htAll hc' hc'' h1 h2
    hin2.1 hin2.2
  have hc1 : c'.1 = c''.1 := by rw [hcc]
  have hc2 : c'.2 = c''.2 := by rw [hcc]
  omega

theorem EdgeIntra_le_EdgeT {A : List (List ℤ)} {chunks : List (ℕ × ℕ)}
    {x y : ℕ} (h : EdgeIntra A chunks x y) : EdgeT A x y := by
  obtain ⟨c, -, h'⟩ := h
  exact h'.2.2.2.2

theorem rtg_quotient {A : List (List ℤ)} {chunks : List (ℕ × ℕ)}
    (hsym : ∀ i j, EdgeT A i j → EdgeT A j i)
    (htAll : tilesFrom 0 chunks A.length = true) {i j : ℕ}
    (hi : i < A.length) (hj : j < A.length) :
    Relation.ReflTransGen (EdgeM A chunks)
        (tagOf A chunks i) (tagOf A chunks j) ↔
      Relation.ReflTransGen (EdgeT A) i j := by
  constructor
  · intro h
    have key : ∀ a b, Relation.ReflTransGen (EdgeM A chunks) a b →
        ∀ i0, i0 < A.length → tagOf A chunks i0 = a →
        ∀ j0, j0 < A.length → tagOf A chunks j0 = b →
        Relation.ReflTransGen (EdgeT A) i0 j0 := by
      intro a b hab
      induction hab with
      | refl =>
        intro i0 hi0 ha j0 hj0 hb
        have hteq : tagOf A chunks i0 = tagOf A chunks j0 := by
          rw [ha, hb]
        rw [tagOf_eq_iff hsym htAll hi0 hj0] at hteq
        exact hteq.mono fun x y hxy => EdgeIntra_le_EdgeT hxy
      | tail hab hE ih =>
        intro i0 hi0 ha j0 hj0 hb
        obtain ⟨hne, k, f, c', hc', h1, h2, h5, hT, htk, htf⟩ := hE
        have hk : k < A.length := hT.1
        have hf : f < A.length := hT.2.1
        have hik := ih i0 hi0 ha k hk htk
        have hif : Relation.ReflTransGen (EdgeT A) i0 f := hik.tail hT
        have hteq : tagOf A chunks f = tagOf A chunks j0 := by
          rw [htf, hb]
        rw [tagOf_eq_iff hsym htAll hf hj0] at hteq
        exact hif.trans (hteq.mono fun x y hxy => EdgeIntra_le_EdgeT hxy)
    exact key _ _ h i hi rfl j hj rfl
  · intro h
    induction h with
    | refl => exact Relation.ReflTransGen.refl
    | tail hik hE ih =>
      rename_i k m
      have hk : k < A.length := hE.1
      have hm : m < A.length := hE.2.1
      obtain ⟨c', hc', h1, h2⟩ := tilesFrom_cover htAll (Nat.zero_le k) hk
      by_cases hmc : c'.1 ≤ m ∧ m < c'.2
      · have hteq : tagOf A chunks k = tagOf A chunks m := by
          rw [tagOf_eq_iff hsym htAll hk hm]
          exact Relation.ReflTransGen.single
            ⟨c', hc', h1, h2, hmc.1, hmc.2, hE⟩
        rw [← hteq]
        exact ih hk
      · by_cases heq : tagOf A chunks k = tagOf A chunks m
        · rw [← heq]
          exact ih hk
        · exact (ih hk).tail
            ⟨heq, k, m, c', hc', h1, h2, by omega, hE, rfl, rfl⟩

theorem EdgeIn_zero_iff {A : List (List ℤ)} {i j : ℕ} :
    EdgeIn A 0 A.length i j ↔ EdgeT A i j := by
  unfold EdgeIn
  constructor
  · rintro ⟨-, -, -, -, h⟩
    exact h
  · intro h
    exact ⟨Nat.zero_le i, h.1, Nat.zero_le j, h.2.1, h⟩

theorem single_pass_classes {A : List (List ℤ)}
    (hsym : ∀ i j, EdgeT A i j → EdgeT A j i) {i j : ℕ}
    (hi : i < A.length) (hj : j < A.length) :
    ((single_pass A).getD i 0 = (single_pass A).getD j 0) ↔
      Relation.ReflTransGen (EdgeT A) i j := by
  have HsymL : ∀ a b, EdgeRel (fun _ _ => true)
      (local_adjacents A 0 A.length) a b →
      EdgeRel (fun _ _ => true) (local_adjacents A 0 A.length) b a := by
    intro a b hab
    rw [EdgeRel_local_iff (le_refl A.length)] at hab ⊢
    exact EdgeIn_symm hsym hab
  have hspec := ccGo_spec (fun _ _ => true)
    (local_adjacents A 0 A.length) 0 HsymL
  have hlenT : ((as_connected_components (local_adjacents A 0 A.length)
      0).1).length = A.length := by
    rw [as_cc_fst, ccGo_length_T, List.length_replicate,
      length_local_adjacents]
    omega
  rw [show single_pass A = ((as_connected_components
    (local_adjacents A 0 A.length) 0).1).map (fun o => o.getD 0) from rfl]
  rw [getD_map_general (by rw [hlenT]; exact hi) _,
    getD_map_general (by rw [hlenT]; exact hj) _]
  obtain ⟨ti, hti, -, -⟩ := hspec.1 i (by rw [length_local_adjacents]; omega)
  obtain ⟨tj, htj, -, -⟩ := hspec.1 j (by rw [length_local_adjacents]; omega)
  have hiff := hspec.2.1 i j (by rw [length_local_adjacents]; omega)
    (by rw [length_local_adjacents]; omega)
  rw [as_cc_fst, hti, htj]
  simp only [Option.getD_some]
  rw [hti, htj] at hiff
  rw [show (ti = tj) ↔ (some ti = some tj : Prop) from by simp, hiff,
    rtg_local_iff (le_refl A.length), Nat.zero_add, Nat.zero_add]
  exact ⟨fun h => h.mono fun a b hab => EdgeIn_zero_iff.mp hab,
    fun h => h.mono fun a b hab => EdgeIn_zero_iff.mpr hab⟩

theorem two_pass_classes {A : List (List ℤ)} {chunks : List (ℕ × ℕ)}
    (hsym : ∀ i j, EdgeT A i j → EdgeT A j i)
    (hAw : ∀ i, i < A.length → ∀ f ∈ A.getD i [],
      f = -1 ∨ (0 ≤ f ∧ f < (A.length : ℤ)))
    (htAll : tilesFrom 0 chunks A.length = true) {i j : ℕ}
    (hi : i < A.length) (hj : j < A.length) :
    ((two_pass A chunks).getD i 0 = (two_pass A chunks).getD j 0) ↔
      Relation.ReflTransGen (EdgeT A) i j := by
  have HsymM : ∀ a b, EdgeRel (fun _ _ => true) (mergeRows A chunks) a b →
      EdgeRel (fun _ _ => true) (mergeRows A chunks) b a := by
    intro a b hab
    rw [EdgeRel_merge_iff hsym hAw htAll] at hab ⊢
    exact EdgeM_symm hsym htAll hab
  have hspec := ccGo_spec (fun _ _ => true) (mergeRows A chunks)
    (pass1 A chunks).2.1 HsymM
  rw [two_pass_eq]
  have hlen1 : (pass1 A chunks).1.length = A.length :=
    (pass1_inv hsym htAll).lenT
  rw [getD_map_general (by rw [hlen1]; exact hi) _,
    getD_map_general (by rw [hlen1]; exact hj) _]
  rw [tag_some hsym htAll hi, tag_some hsym htAll hj]
  simp only [Option.getD_some]
  have hti := tagOf_lt hsym htAll hi
  have htj := tagOf_lt hsym htAll hj
  obtain ⟨a, ha, -, -⟩ := hspec.1 (tagOf A chunks i)
    (by rw [mergeRows_length]; exact hti)
  obtain ⟨b, hb, -, -⟩ := hspec.1 (tagOf A chunks j)
    (by rw [mergeRows_length]; exact htj)
  have hiff := hspec.2.1 (tagOf A chunks i) (tagOf A chunks j)
    (by rw [mergeRows_length]; exact hti)
    (by rw [mergeRows_length]; exact htj)
  rw [as_cc_fst, ha, hb]
  simp only [Option.getD_some]
  rw [ha, hb] at hiff
  rw [show (a = b) ↔ (some a = some b : Prop) from by simp, hiff,
    show Relation.ReflTransGen (EdgeRel (fun _ _ => true)
        (mergeRows A chunks)) (tagOf A chunks i) (tagOf A chunks j) ↔
      Relation.ReflTransGen (EdgeM A chunks) (tagOf A chunks i)
        (tagOf A chunks j) from
    ⟨fun h => h.mono fun x y hxy =>
      (EdgeRel_merge_iff hsym hAw htAll).mp hxy,
     fun h => h.mono fun x y hxy =>
      (EdgeRel_merge_iff hsym hAw htAll).mpr hxy⟩]
  exact rtg_quotient hsym htAll hi hj

/-- C2 amended: on a SYMMETRIC shared adjacency table (no one-sided
truncation) the two-pass parallel partitioner and the single-process run
produce the same partition of facets.  The rows' entries must be `-1`
padding or valid facet indices, and the chunks must tile the facet range
contiguously in order, as `make_chunks` produces them. -/
theorem C2_two_pass_equals_single (A : List (List ℤ))
    (chunks : List (ℕ × ℕ))
    (hAw : ∀ i, i < A.length → ∀ f ∈ A.getD i [],
      f = -1 ∨ (0 ≤ f ∧ f < (A.length : ℤ)))
    (hs : ∀ i, i < A.length → ∀ j, j < A.length →
      (j : ℤ) ∈ A.getD i [] → (i : ℤ) ∈ A.getD j [])
    (htAll : tilesFrom 0 chunks A.length = true)
    (i j : ℕ) (hi : i < A.length) (hj : j < A.length) :
    ((two_pass A chunks).getD i 0 = (two_pass A chunks).getD j 0) ↔
      ((single_pass A).getD i 0 = (single_pass A).getD j 0) := by
  have hsym : ∀ a b, EdgeT A a b → EdgeT A b a := by
    rintro a b ⟨h1, h2, h3⟩
    exact ⟨h2, h1, hs a h1 b h2 h3⟩
  rw [two_pass_classes hsym hAw htAll hi hj,
    single_pass_classes hsym hi hj]

/-- Witness for the amended C2 on a symmetric two-facet table split into
two one-facet chunks. -/
theorem C2_amended_witness :
    (tilesFrom 0 [(0, 1), (1, 2)]
      ([[1], [0]] : List (List ℤ)).length = true) ∧
    (((two_pass [[1], [0]] [(0, 1), (1, 2)]).getD 0 0 =
        (two_pass [[1], [0]] [(0, 1), (1, 2)]).getD 1 0) ↔
      ((single_pass [[1], [0]]).getD 0 0 =
        (single_pass [[1], [0]]).getD 1 0)) :=
  ⟨by decide, C2_two_pass_equals_single [[1], [0]] [(0, 1), (1, 2)]
    (by decide) (by decide) (by decide) 0 1 (by decide) (by decide)⟩

end ClaimC2

end RenderVerif
